import Mathlib

/-!
# mad::string — a shallow embedding of `mad_string.h`

`mad::string` derives from `std::string` and adds a private vector of token
positions.  The embedding keeps both: a value is the character sequence of the
`std::string` base together with the token vector.  Member functions become
functions from the value before the call to an `Outcome`: a normal return
(with the returned value and the value of `*this` afterwards), a propagated
exception (with the value of `*this` at the throw), or a loop that never exits.

`size_t` is taken to be 64 bits wide.  Sizes of strings are below `2^64`
(`std::string::max_size`), so sums of an index and a size are computed exactly;
the wrapping subtraction of `slice` and `trim` is modelled with an explicit
reduction modulo `2^64`.
-/

set_option autoImplicit false

/-! ## The parts of the C++ standard library the header uses -/

namespace std

/-- The exceptions the header can raise or propagate: `std::out_of_range`
with its `what()` text.  For exceptions thrown by `std::string` itself the
text is implementation defined; the embedding records the member's name. -/
inductive exception where
  | out_of_range (what : String)
deriving DecidableEq

/-- The modulus of `size_t` arithmetic. -/
def SIZE_MOD : Nat := 18446744073709551616

/-- The constant `std::string::npos`, the largest `size_t`. -/
def npos : Nat := SIZE_MOD - 1

/-- Addition of two `size_t` values. -/
def size_add (a b : Nat) : Nat := (a + b) % SIZE_MOD

/-- Subtraction of two `size_t` values (wraps below zero). -/
def size_sub (a b : Nat) : Nat := (a % SIZE_MOD + (SIZE_MOD - b % SIZE_MOD)) % SIZE_MOD

namespace string

/-- The member `std::string::substr(pos, n)`: the characters from `pos`, at most `n`
of them; `out_of_range` when `pos > size()`. -/
def substr (self : List Char) (pos n : Nat) : Except exception (List Char) :=
  if pos > self.length then .error (.out_of_range "basic_string::substr")
  else .ok ((self.drop pos).take n)

/-- The member `std::string::erase(pos, n)`: removes at most `n` characters from
`pos`; `out_of_range` when `pos > size()`. -/
def erase (self : List Char) (pos n : Nat) : Except exception (List Char) :=
  if pos > self.length then .error (.out_of_range "basic_string::erase")
  else .ok (self.take pos ++ (self.drop pos).drop n)

/-- The member `std::string::at(i)`: the character at `i`; `out_of_range` when
`i >= size()`. -/
def charAt (self : List Char) (i : Nat) : Except exception Char :=
  match self.get? i with
  | some c => .ok c
  | none => .error (.out_of_range "basic_string::at")

/-- Scan of `find`: `rest` is the text from absolute index `i` on. -/
def find_scan (str : List Char) : List Char → Nat → Option Nat
  | [], i => if str.isPrefixOf [] then some i else none
  | c :: cs, i => if str.isPrefixOf (c :: cs) then some i else find_scan str cs (i + 1)

/-- The member `std::string::find(str, pos)`: the lowest index `>= pos` at which
`str` occurs, `none` standing for `npos`. -/
def find (self str : List Char) (pos : Nat) : Option Nat :=
  if pos > self.length then none else find_scan str (self.drop pos) pos

/-- Scan of `find` for one character. -/
def find_char_scan (c : Char) : List Char → Nat → Option Nat
  | [], _ => none
  | x :: xs, i => if x = c then some i else find_char_scan c xs (i + 1)

/-- The member `std::string::find(c, pos)` for a character `c`, `none` standing
for `npos`. -/
def find_char (self : List Char) (c : Char) (pos : Nat) : Option Nat :=
  find_char_scan c (self.drop pos) pos

/-- The test `compare(pos, n, str) == 0`: whether the at most `n` characters
from `pos` are exactly `str`; `out_of_range` when `pos > size()`. -/
def compare_eq_zero (self : List Char) (pos n : Nat) (str : List Char) : Except exception Bool :=
  if pos > self.length then .error (.out_of_range "basic_string::compare")
  else .ok (decide ((self.drop pos).take n = str))

end string
end std

/-! ## The header -/

namespace mad

open std

/-- The class `mad::string`: the `std::string` base and the private member
`tokens`. -/
structure string where
  data : List Char
  tokens : List (Nat × Nat)
deriving DecidableEq

/-- How a call of a member function ends. -/
inductive Outcome (α : Type) where
  | returns (value : α) (self : string)
  | throws (e : exception) (self : string)
  | diverges
deriving DecidableEq

/-- Sequencing of two steps of a member function: the second runs on the value
the first one left, an exception or a divergence of the first ends the call. -/
def Outcome.bind {α β : Type} (o : Outcome α) (k : α → string → Outcome β) : Outcome β :=
  match o with
  | .returns v self => k v self
  | .throws e self => .throws e self
  | .diverges => .diverges

namespace string

/-- Construction from a `std::string`: the inherited and the moving
constructors leave `tokens` empty. -/
def of_std (s : List Char) : string := ⟨s, []⟩

/-- The inherited `size()`. -/
def size (self : string) : Nat := self.data.length

/-- The member `slice(pos1, pos2)`: `this->substr(pos1, pos2+1-pos1)`. -/
def slice (self : string) (pos1 pos2 : Nat) : Outcome string :=
  match string.substr self.data pos1 (size_sub (size_add pos2 1) pos1) with
  | .ok s => .returns (of_std s) self
  | .error e => .throws e self

/-- The test `str.find(c)+1` of the header: whether the character `c` is
found in `str` (`npos + 1` wraps to zero). -/
def has_char (str : List Char) (c : Char) : Bool :=
  (std.string.find_char str c 0).isSome

/-- First loop of `trim`:
`while (this->find(str) == 0) this->erase(0,str.size());` -/
def trim_front (str : List Char) : Nat → string → Outcome Unit
  | 0, _ => .diverges
  | fuel + 1, self =>
    if std.string.find self.data str 0 = some 0 then
      match std.string.erase self.data 0 str.length with
      | .ok d => trim_front str fuel { self with data := d }
      | .error e => .throws e self
    else .returns () self

/-- Second loop of `trim`:
`for (std::string tmp = str + str;(pos = this->find(tmp))+1;this->erase(pos,str.size()));` -/
def trim_middle (str : List Char) : Nat → string → Outcome Unit
  | 0, _ => .diverges
  | fuel + 1, self =>
    match std.string.find self.data (str ++ str) 0 with
    | some pos =>
      match std.string.erase self.data pos str.length with
      | .ok d => trim_middle str fuel { self with data := d }
      | .error e => .throws e self
    | none => .returns () self

/-- Third loop of `trim`:
`for (;this->compare((pos = this->size()-str.size()),std::string::npos,str) == 0;this->erase(pos));` -/
def trim_back (str : List Char) : Nat → string → Outcome Unit
  | 0, _ => .diverges
  | fuel + 1, self =>
    let pos := size_sub self.size str.length
    match std.string.compare_eq_zero self.data pos npos str with
    | .error e => .throws e self
    | .ok true =>
      match std.string.erase self.data pos npos with
      | .ok d => trim_back str fuel { self with data := d }
      | .error e => .throws e self
    | .ok false => .returns () self

/-- The member `trim(str)`.  Every iteration of a loop that does not exit removes
`str.size()` characters, so for a non-empty `str` a loop started on a text of
`n` characters evaluates its condition at most `n + 1` times: that is the fuel
each loop gets.  For the empty `str` the first loop erases nothing and never
exits. -/
def trim (self : string) (str : List Char) : Outcome string :=
  (trim_front str (self.size + 1) self).bind fun _ self =>
  (trim_middle str (self.size + 1) self).bind fun _ self =>
  (trim_back str (self.size + 1) self).bind fun _ self =>
  .returns self self

/-- The loop of `trim_all_of` from the iterator `c` on: the argument is the text
from `c` to `end()`, the result is what that part of the text has become when
the loop exits (`erase(c)` drops its first character and leaves `c` in place,
`++c` keeps it). -/
def trim_all_of_loop (any : List Char) : Bool → List Char → List Char
  | _, [] => []
  | front, c :: rest =>
    if has_char any c && (front || rest.isEmpty || rest.head? == some c) then
      trim_all_of_loop any front rest
    else c :: trim_all_of_loop any false rest

/-- The member `trim_all_of(any)`. -/
def trim_all_of (self : string) (any : List Char) : Outcome string :=
  let self := { self with data := trim_all_of_loop any true self.data }
  .returns self self

/-- The loop of `trim_any_of` from the iterator `c` on, as for `trim_all_of`. -/
def trim_any_of_loop (any : List Char) : Bool → List Char → List Char
  | _, [] => []
  | front, c :: rest =>
    if has_char any c && (front || rest.isEmpty || (rest.head?.map (has_char any)).getD false) then
      trim_any_of_loop any front rest
    else c :: trim_any_of_loop any false rest

/-- The member `trim_any_of(any)`. -/
def trim_any_of (self : string) (any : List Char) : Outcome string :=
  let self := { self with data := trim_any_of_loop any true self.data }
  .returns self self

/-- The quote jump shared by both tokenizers:
`if ((quote_chars.find(c = this->at(i))+1) && ((temp = this->find(c,i+1))+1)) i = temp;` -/
def quote_jump (self : string) (quote_chars : List Char) (c : Char) (i : Nat) : Nat :=
  if has_char quote_chars c then
    match std.string.find_char self.data c (i + 1) with
    | some temp => temp
    | none => i
  else i

/-- The span adjustment shared by both tokenizers: `temp = i`, one step inward
when `i` is not at an edge, and one more step inward on both sides when the
span is between two quote characters.  Returns the pair that is cached. -/
def token_span (self : string) (quote_chars : List Char) (s i last : Nat) :
    Except exception (Nat × Nat) :=
  let temp := if i > 0 ∧ i + 1 < s then i - 1 else i
  if last ≠ temp ∧ temp > 0 then
    match std.string.charAt self.data temp with
    | .error e => .error e
    | .ok ct =>
      if has_char quote_chars ct then
        match std.string.charAt self.data last with
        | .error e => .error e
        | .ok cl => if has_char quote_chars cl then .ok (last + 1, temp - 1) else .ok (last, temp)
      else .ok (last, temp)
  else .ok (last, temp)

/-- One iteration of the loop of `tokenize`, entered with `i < s`: the new
`i`, the new `last` and the value with the new token cached. -/
def tokenize_body (delimiter quote_chars : List Char) (s i last : Nat) (self : string) :
    Except exception (Nat × Nat × string) :=
  match std.string.charAt self.data i with
  | .error e => .error e
  | .ok c =>
    let i := quote_jump self quote_chars c i
    match (if i + 1 = s then .ok true
      else std.string.compare_eq_zero self.data i delimiter.length delimiter) with
    | .error e => .error e
    | .ok true =>
      match token_span self quote_chars s i last with
      | .error e => .error e
      | .ok span =>
        .ok (i + delimiter.length, i + delimiter.length,
          { self with tokens := self.tokens ++ [span] })
    | .ok false => .ok (i + 1, last, self)

/-- The loop of `tokenize`: `for (size_t i = 0, s = this->size(), last = 0, temp = 0;i < s;)`. -/
def tokenize_loop (delimiter quote_chars : List Char) (s : Nat) :
    Nat → Nat → Nat → string → Outcome Unit
  | 0, _, _, _ => .diverges
  | fuel + 1, i, last, self =>
    if i < s then
      match tokenize_body delimiter quote_chars s i last self with
      | .ok (i, last, self) => tokenize_loop delimiter quote_chars s fuel i last self
      | .error e => .throws e self
    else .returns () self

/-- The member `tokenize(delimiter, quote_chars)`.  With a non-empty delimiter every
iteration advances `i`, so the condition is evaluated at most `size() + 1`
times; with the empty delimiter every position is a boundary, `i` is not
advanced and the loop never exits on a non-empty text. -/
def tokenize (self : string) (delimiter quote_chars : List Char) : Outcome Nat :=
  let self := { self with tokens := [] }
  (tokenize_loop delimiter quote_chars self.size (self.size + 1) 0 0 self).bind fun _ self =>
  .returns self.tokens.length self

/-- One iteration of the loop of `tokenize_any`, entered with `i < s`, the
`++i` of the loop header included. -/
def tokenize_any_body (delimiters quote_chars : List Char) (s i last : Nat) (self : string) :
    Except exception (Nat × Nat × string) :=
  match std.string.charAt self.data i with
  | .error e => .error e
  | .ok c =>
    let i := quote_jump self quote_chars c i
    if i + 1 = s ∨ has_char delimiters c then
      match token_span self quote_chars s i last with
      | .error e => .error e
      | .ok span => .ok (i + 1, i + 1, { self with tokens := self.tokens ++ [span] })
    else .ok (i + 1, last, self)

/-- The loop of `tokenize_any`: `for (size_t i = 0, s = this->size(), last = 0, temp = 0;i < s;++i)`. -/
def tokenize_any_loop (delimiters quote_chars : List Char) (s : Nat) :
    Nat → Nat → Nat → string → Outcome Unit
  | 0, _, _, _ => .diverges
  | fuel + 1, i, last, self =>
    if i < s then
      match tokenize_any_body delimiters quote_chars s i last self with
      | .ok (i, last, self) => tokenize_any_loop delimiters quote_chars s fuel i last self
      | .error e => .throws e self
    else .returns () self

/-- The member `tokenize_any(delimiters, quote_chars)`. -/
def tokenize_any (self : string) (delimiters quote_chars : List Char) : Outcome Nat :=
  let self := { self with tokens := [] }
  (tokenize_any_loop delimiters quote_chars self.size (self.size + 1) 0 0 self).bind fun _ self =>
  .returns self.tokens.length self

/-- The loop `for (auto& p : tokens) v.emplace_back(slice(p.first,p.second));`
of `split` and `split_any`, over the tokens still to visit. -/
def split_collect (self : string) : List (Nat × Nat) → List string → Outcome (List string)
  | [], v => .returns v self
  | p :: ps, v =>
    (slice self p.1 p.2).bind fun t self => split_collect self ps (v ++ [t])

/-- The member `split(delimiter, quote_chars)`. -/
def split (self : string) (delimiter quote_chars : List Char) : Outcome (List string) :=
  (if delimiter.length ≠ 0 then
      (tokenize self delimiter quote_chars).bind fun _ self => .returns () self
    else .returns () self).bind fun _ self =>
  split_collect self self.tokens []

/-- The member `split_any(delimiters, quote_chars)`. -/
def split_any (self : string) (delimiters quote_chars : List Char) : Outcome (List string) :=
  (if delimiters.length ≠ 0 then
      (tokenize_any self delimiters quote_chars).bind fun _ self => .returns () self
    else .returns () self).bind fun _ self =>
  split_collect self self.tokens []

/-- The message of the exception of `get_token` and `get_token_pos`. -/
def token_error (operation : String) (token size : Nat) : exception :=
  .out_of_range (operation ++ toString token ++ " Exceeds token size, which is "
    ++ toString size ++ ".")

/-- The member `get_token(token)`. -/
def get_token (self : string) (token : Nat) : Outcome string :=
  if token ≥ self.tokens.length then
    .throws (token_error "mad::string::get_token(): " token self.tokens.length) self
  else
    match self.tokens.get? token with
    | some pos => slice self pos.1 pos.2
    | none => .throws (.out_of_range "vector::at") self

/-- The member `get_token_pos(token)`. -/
def get_token_pos (self : string) (token : Nat) : Outcome (Nat × Nat) :=
  if token ≥ self.tokens.length then
    .throws (token_error "mad::string::get_token_pos(): " token self.tokens.length) self
  else
    match self.tokens.get? token with
    | some pos => .returns pos self
    | none => .throws (.out_of_range "vector::at") self

/-- The member `token_size()`. -/
def token_size (self : string) : Nat := self.tokens.length

end string
end mad

namespace mad

open std

/-- The `mad::string` constructed from a string literal. -/
def lit (s : String) : string := string.of_std s.toList

/-! ## Definitions used to state the properties -/

/-- Every cached pair is a pair of offsets into the text. -/
def valid_tokens (self : string) : Prop :=
  ∀ p ∈ self.tokens, p.1 < self.size ∧ p.2 < self.size

/-- The positions of the fields `t1, t2, ...` in a text where `t1` starts at
index `p` and consecutive fields are separated by `dl` characters: the index
of the first and of the last character of each field, an empty field that
starts at `p` giving `(p, p - 1)`. -/
def field_spans (dl : Nat) : Nat → List (List Char) → List (Nat × Nat)
  | _, [] => []
  | p, t :: ts => (p, p + t.length - 1) :: field_spans dl (p + t.length + dl) ts

/-- No occurrence of the delimiter `d` in `t1 + d + t2 + d + ... + tn` starts at
a position inside one of the `t`s. -/
def no_early_match (d : List Char) : List (List Char) → Prop
  | [] => True
  | t :: ts =>
    (∀ j, j < t.length → ¬ d <+: (d.intercalate (t :: ts)).drop j) ∧ no_early_match d ts

/-- The value of `*this` a call leaves behind, when the call ends. -/
def Outcome.post {α : Type} : Outcome α → Option string
  | .returns _ self => some self
  | .throws _ self => some self
  | .diverges => none

/-- Whether the character `c` belongs to the character set `any`. -/
def in_set (any : List Char) (c : Char) : Bool := decide (c ∈ any)

/-- The text `l` with each maximal run of consecutive characters of the set
`any` replaced by the last character of the run. -/
def collapse_runs (any : List Char) (l : List Char) : List Char :=
  ((l.splitBy fun a b => in_set any a && in_set any b).map fun run =>
    if run.all (in_set any) then run.getLast?.toList else run).flatten

/-- The text that `trim_any_of(any)` is specified to leave: the leading
characters of the set deleted, the trailing characters of the set deleted, and
each remaining maximal run of characters of the set replaced by its last
character. -/
def trim_any_of_spec (any content : List Char) : List Char :=
  collapse_runs any ((content.dropWhile (in_set any)).rdropWhile (in_set any))

/-- The text `txt` with every character that belongs to the set `ds` replaced by
the character `d`. -/
def replace_set (ds : List Char) (d : Char) (txt : List Char) : List Char :=
  txt.map fun ch => if ch ∈ ds then d else ch

/-- The value `slice(p.first, p.second)` returns when `p.first` is not beyond
the end of the text. -/
def slice_value (self : string) (p : Nat × Nat) : string :=
  string.of_std ((self.data.drop p.1).take (size_sub (size_add p.2 1) p.1))

/-! ## Facts about the standard library model -/

theorem size_sub_of_le (a b : Nat) (ha : a < SIZE_MOD) (hb : b ≤ a) : size_sub a b = a - b := by
  simp only [size_sub, SIZE_MOD] at *
  omega

theorem size_add_of_lt (a b : Nat) (h : a + b < SIZE_MOD) : size_add a b = a + b := by
  simp only [size_add, SIZE_MOD] at *
  omega

theorem slice_of_le (self : string) (pos1 pos2 : Nat) (hsize : self.size < SIZE_MOD)
    (h1 : pos1 ≤ pos2 + 1) (h2 : pos2 < self.size) :
    self.slice pos1 pos2 =
      .returns (string.of_std ((self.data.drop pos1).take (pos2 + 1 - pos1))) self := by
  have hs : self.data.length < SIZE_MOD := hsize
  have h2' : pos2 < self.data.length := h2
  have e1 : size_add pos2 1 = pos2 + 1 := size_add_of_lt _ _ (by omega)
  have e2 : size_sub (pos2 + 1) pos1 = pos2 + 1 - pos1 := size_sub_of_le _ _ (by omega) h1
  have h3 : ¬ pos1 > self.data.length := by omega
  simp [string.slice, std.string.substr, e1, e2, h3]

/-! ## Slicing -/

/-- C1: for positions `pos1 <= pos2 < size`, `slice(pos1, pos2)` returns a new
value of exactly `pos2 - pos1 + 1` characters whose `k`-th character is
`content[pos1 + k]`, and leaves the content and the token cache of the
receiver unchanged; `slice(6,10)` on `"hello world!"` is `"world"`. -/
theorem slice_closed_range (self : string) (pos1 pos2 : Nat)
    (hsize : self.size < SIZE_MOD) (h12 : pos1 ≤ pos2) (h2 : pos2 < self.size) :
    (∃ r : string, self.slice pos1 pos2 = .returns r self ∧
      r.size = pos2 - pos1 + 1 ∧
      ∀ k, k < pos2 - pos1 + 1 → r.data[k]? = self.data[pos1 + k]?) ∧
    (lit "hello world!").slice 6 10 = .returns (lit "world") (lit "hello world!") := by
  refine ⟨⟨_, slice_of_le self pos1 pos2 hsize (by omega) h2, ?_, ?_⟩, by decide⟩
  · have h2' : pos2 < self.data.length := h2
    simp only [string.size, string.of_std, List.length_take, List.length_drop]
    omega
  · intro k hk
    simp only [string.of_std]
    rw [List.getElem?_take, if_pos (by omega), List.getElem?_drop]

theorem slice_closed_range_witness :
    (lit "hello world!").size < SIZE_MOD ∧ 6 ≤ 10 ∧ 10 < (lit "hello world!").size ∧
    ∃ r : string, (lit "hello world!").slice 6 10 = .returns r (lit "hello world!") ∧
      r.size = 5 :=
  ⟨by decide, by decide, by decide,
    (slice_closed_range (lit "hello world!") 6 10 (by decide) (by decide) (by decide)).1.imp
      fun _ h => ⟨h.1, h.2.1⟩⟩

theorem charAt_ok_iff (l : List Char) (i : Nat) (c : Char) :
    std.string.charAt l i = .ok c ↔ l[i]? = some c := by
  unfold std.string.charAt
  rw [List.get?_eq_getElem?]
  cases h : l[i]? <;> simp

theorem charAt_of_lt (l : List Char) (i : Nat) (h : i < l.length) :
    std.string.charAt l i = .ok (l[i]) := by
  rw [charAt_ok_iff]
  exact List.getElem?_eq_getElem h

theorem find_char_scan_spec (c : Char) :
    ∀ (l : List Char) (i t : Nat), std.string.find_char_scan c l i = some t →
      i ≤ t ∧ t < i + l.length ∧ l[t - i]? = some c ∧ ∀ k, k < t - i → l[k]? ≠ some c := by
  intro l
  induction l with
  | nil => intro i t h; simp [std.string.find_char_scan] at h
  | cons x xs ih =>
    intro i t h
    unfold std.string.find_char_scan at h
    split at h
    · rename_i hx
      have ht : i = t := by simpa using h
      subst ht
      simp [hx]
    · rename_i hx
      obtain ⟨h1, h2, h3, h4⟩ := ih (i + 1) t h
      have e : t - i = (t - (i + 1)) + 1 := by omega
      refine ⟨by omega, by simp only [List.length_cons]; omega, ?_, ?_⟩
      · rw [e, List.getElem?_cons_succ]; exact h3
      · intro k hk
        cases k with
        | zero => simpa using hx
        | succ k => rw [List.getElem?_cons_succ]; exact h4 k (by omega)

theorem find_char_scan_none (c : Char) :
    ∀ (l : List Char) (i : Nat), std.string.find_char_scan c l i = none ↔ c ∉ l := by
  intro l
  induction l with
  | nil => intro i; simp [std.string.find_char_scan]
  | cons x xs ih =>
    intro i
    unfold std.string.find_char_scan
    split
    · rename_i hx; simp [hx]
    · rename_i hx
      rw [ih]
      simp [Ne.symm hx]

theorem find_char_spec (l : List Char) (c : Char) (pos t : Nat)
    (h : std.string.find_char l c pos = some t) :
    pos ≤ t ∧ t < l.length ∧ l[t]? = some c := by
  unfold std.string.find_char at h
  obtain ⟨h1, h2, h3, -⟩ := find_char_scan_spec c _ pos t h
  have hlen : t < l.length := by
    simp only [List.length_drop] at h2
    omega
  refine ⟨h1, hlen, ?_⟩
  rw [List.getElem?_drop] at h3
  rwa [show pos + (t - pos) = t by omega] at h3

theorem has_char_iff (str : List Char) (c : Char) : string.has_char str c = true ↔ c ∈ str := by
  unfold string.has_char std.string.find_char
  rw [List.drop_zero, Option.isSome_iff_ne_none, Ne, find_char_scan_none]
  simp

theorem has_char_nil (c : Char) : string.has_char [] c = false := by
  rw [Bool.eq_false_iff, Ne, has_char_iff]
  simp

theorem quote_jump_bounds (self : string) (quote_chars : List Char) (c : Char) (i : Nat)
    (hi : i < self.size) :
    i ≤ string.quote_jump self quote_chars c i ∧ string.quote_jump self quote_chars c i < self.size := by
  unfold string.quote_jump
  split
  · split
    · rename_i t ht
      obtain ⟨h1, h2, -⟩ := find_char_spec _ _ _ _ ht
      exact ⟨by omega, h2⟩
    · exact ⟨le_refl _, hi⟩
  · exact ⟨le_refl _, hi⟩

theorem quote_jump_nil (self : string) (c : Char) (i : Nat) :
    string.quote_jump self [] c i = i := by
  simp [string.quote_jump, has_char_nil]

theorem token_span_bounds (self : string) (quote_chars : List Char) (i last : Nat)
    (hi : i < self.size) (hl : last ≤ i) :
    ∃ p, string.token_span self quote_chars self.size i last = .ok p ∧
      p.1 < self.size ∧ p.2 < self.size := by
  have hi' : i < self.data.length := hi
  unfold string.token_span
  by_cases hedge : i > 0 ∧ i + 1 < self.size
  · simp only [hedge, and_self, if_true]
    by_cases hq : last ≠ i - 1 ∧ i - 1 > 0
    · rw [if_pos hq, charAt_of_lt _ _ (by omega)]
      simp only
      split
      · rw [charAt_of_lt _ _ (by omega)]
        simp only
        split
        · exact ⟨_, rfl, by simp only; omega, by simp only; omega⟩
        · exact ⟨_, rfl, by simp only; omega, by simp only; omega⟩
      · exact ⟨_, rfl, by simp only; omega, by simp only; omega⟩
    · rw [if_neg hq]
      exact ⟨_, rfl, by simp only; omega, by simp only; omega⟩
  · rw [if_neg hedge]
    by_cases hq : last ≠ i ∧ i > 0
    · rw [if_pos hq, charAt_of_lt _ _ (by omega)]
      simp only
      split
      · rw [charAt_of_lt _ _ (by omega)]
        simp only
        split
        · have : i + 1 = self.size ∨ i = 0 := by
            by_contra hc
            apply hedge
            omega
          exact ⟨_, rfl, by simp only; omega, by simp only; omega⟩
        · exact ⟨_, rfl, by simp only; omega, by simp only; omega⟩
      · exact ⟨_, rfl, by simp only; omega, by simp only; omega⟩
    · rw [if_neg hq]
      exact ⟨_, rfl, by simp only; omega, by simp only; omega⟩

theorem compare_eq_zero_of_le (l : List Char) (pos n : Nat) (str : List Char)
    (h : pos ≤ l.length) :
    std.string.compare_eq_zero l pos n str = .ok (decide ((l.drop pos).take n = str)) := by
  unfold std.string.compare_eq_zero
  rw [if_neg (by omega)]

/-- What one iteration of the loop of `tokenize` does to the loop variables:
it never throws, keeps the text, keeps `last <= i`, does not move `i`
backwards and advances it when the delimiter is not empty. -/
theorem tokenize_body_spec (delimiter quote_chars : List Char) (i last : Nat) (self : string)
    (hi : i < self.size) (hl : last ≤ i) (hv : valid_tokens self) :
    ∃ i1 last1 self1,
      string.tokenize_body delimiter quote_chars self.size i last self = .ok (i1, last1, self1) ∧
      self1.data = self.data ∧ last1 ≤ i1 ∧ valid_tokens self1 ∧ i ≤ i1 ∧
      (delimiter ≠ [] → i < i1) ∧ self.tokens.length ≤ self1.tokens.length := by
  have hi' : i < self.data.length := hi
  unfold string.tokenize_body
  rw [charAt_of_lt _ _ hi']
  simp only
  obtain ⟨hj1, hj2⟩ := quote_jump_bounds self quote_chars (self.data[i]) i hi
  generalize string.quote_jump self quote_chars (self.data[i]) i = j at hj1 hj2
  have hj2' : j < self.data.length := hj2
  have hb : ∃ b, (if j + 1 = self.size then (Except.ok true : Except exception Bool)
      else std.string.compare_eq_zero self.data j delimiter.length delimiter) = .ok b := by
    split
    · exact ⟨_, rfl⟩
    · exact ⟨_, compare_eq_zero_of_le _ _ _ _ (by omega)⟩
  obtain ⟨b, hb⟩ := hb
  rw [hb]
  cases b with
  | false =>
    exact ⟨_, _, _, rfl, rfl, by omega, hv, by omega, fun _ => by omega, le_refl _⟩
  | true =>
    obtain ⟨p, hp, hp1, hp2⟩ := token_span_bounds self quote_chars j last hj2 (by omega)
    simp only [hp]
    refine ⟨_, _, _, rfl, rfl, le_refl _, ?_, by omega, ?_, by simp⟩
    · intro t ht
      simp only [List.mem_append, List.mem_singleton] at ht
      rcases ht with ht | ht
      · exact hv t ht
      · subst ht; exact ⟨hp1, hp2⟩
    · intro hd
      have : 0 < delimiter.length := List.length_pos.mpr hd
      omega

/-- What one iteration of the loop of `tokenize_any` does to the loop variables. -/
theorem tokenize_any_body_spec (delimiters quote_chars : List Char) (i last : Nat) (self : string)
    (hi : i < self.size) (hl : last ≤ i) (hv : valid_tokens self) :
    ∃ i1 last1 self1,
      string.tokenize_any_body delimiters quote_chars self.size i last self
        = .ok (i1, last1, self1) ∧
      self1.data = self.data ∧ last1 ≤ i1 ∧ valid_tokens self1 ∧ i < i1 ∧
      self.tokens.length ≤ self1.tokens.length := by
  have hi' : i < self.data.length := hi
  unfold string.tokenize_any_body
  rw [charAt_of_lt _ _ hi']
  simp only
  obtain ⟨hj1, hj2⟩ := quote_jump_bounds self quote_chars (self.data[i]) i hi
  generalize string.quote_jump self quote_chars (self.data[i]) i = j at hj1 hj2
  split
  · obtain ⟨p, hp, hp1, hp2⟩ := token_span_bounds self quote_chars j last hj2 (by omega)
    simp only [hp]
    refine ⟨_, _, _, rfl, rfl, le_refl _, ?_, by omega, by simp⟩
    intro t ht
    simp only [List.mem_append, List.mem_singleton] at ht
    rcases ht with ht | ht
    · exact hv t ht
    · subst ht; exact ⟨hp1, hp2⟩
  · exact ⟨_, _, _, rfl, rfl, by omega, hv, by omega, le_refl _⟩

/-- The loop of `tokenize` never throws; when it exits it has kept the text and
cached only valid offsets. -/
theorem tokenize_loop_inv (delimiter quote_chars : List Char) :
    ∀ (fuel i last : Nat) (self : string), last ≤ i → valid_tokens self →
      string.tokenize_loop delimiter quote_chars self.size fuel i last self = .diverges ∨
      ∃ self1, string.tokenize_loop delimiter quote_chars self.size fuel i last self
          = .returns () self1 ∧
        self1.data = self.data ∧ valid_tokens self1 := by
  intro fuel
  induction fuel with
  | zero => intro i last self _ _; exact Or.inl rfl
  | succ fuel ih =>
    intro i last self hl hv
    unfold string.tokenize_loop
    by_cases hi : i < self.size
    · rw [if_pos hi]
      obtain ⟨i1, last1, self1, hb, hd, hl1, hv1, -, -, -⟩ :=
        tokenize_body_spec delimiter quote_chars i last self hi hl hv
      rw [hb]
      simp only
      have hs : self.size = self1.size := by simp [string.size, hd]
      rw [hs]
      rcases ih i1 last1 self1 hl1 hv1 with h | ⟨self2, h, hd2, hv2⟩
      · exact Or.inl h
      · exact Or.inr ⟨self2, h, hd2.trans hd, hv2⟩
    · rw [if_neg hi]
      exact Or.inr ⟨self, rfl, rfl, hv⟩

/-- The loop of `tokenize_any` never throws; when it exits it has kept the text
and cached only valid offsets. -/
theorem tokenize_any_loop_inv (delimiters quote_chars : List Char) :
    ∀ (fuel i last : Nat) (self : string), last ≤ i → valid_tokens self →
      string.tokenize_any_loop delimiters quote_chars self.size fuel i last self = .diverges ∨
      ∃ self1, string.tokenize_any_loop delimiters quote_chars self.size fuel i last self
          = .returns () self1 ∧
        self1.data = self.data ∧ valid_tokens self1 := by
  intro fuel
  induction fuel with
  | zero => intro i last self _ _; exact Or.inl rfl
  | succ fuel ih =>
    intro i last self hl hv
    unfold string.tokenize_any_loop
    by_cases hi : i < self.size
    · rw [if_pos hi]
      obtain ⟨i1, last1, self1, hb, hd, hl1, hv1, -, -⟩ :=
        tokenize_any_body_spec delimiters quote_chars i last self hi hl hv
      rw [hb]
      simp only
      have hs : self.size = self1.size := by simp [string.size, hd]
      rw [hs]
      rcases ih i1 last1 self1 hl1 hv1 with h | ⟨self2, h, hd2, hv2⟩
      · exact Or.inl h
      · exact Or.inr ⟨self2, h, hd2.trans hd, hv2⟩
    · rw [if_neg hi]
      exact Or.inr ⟨self, rfl, rfl, hv⟩

theorem tokenize_returns_inv (self : string) (delimiter quote_chars : List Char) (n : Nat)
    (self1 : string) (h : self.tokenize delimiter quote_chars = .returns n self1) :
    self1.data = self.data ∧ valid_tokens self1 ∧ n = self1.tokens.length := by
  unfold string.tokenize at h
  simp only at h
  have hv : valid_tokens { self with tokens := [] } := by intro p hp; simp at hp
  rcases tokenize_loop_inv delimiter quote_chars (({ self with tokens := [] } : string).size + 1)
      0 0 { self with tokens := [] } (le_refl _) hv with hd | ⟨s2, hr, hd, hv2⟩
  · have hd' := hd
    simp only [string.size] at hd'
    simp [string.size, hd', Outcome.bind] at h
  · have hr' := hr
    simp only [string.size] at hr'
    simp only [string.size, hr', Outcome.bind, Outcome.returns.injEq] at h
    obtain ⟨h1, h2⟩ := h
    subst h2
    exact ⟨hd, hv2, h1.symm⟩

theorem tokenize_any_returns_inv (self : string) (delimiters quote_chars : List Char) (n : Nat)
    (self1 : string) (h : self.tokenize_any delimiters quote_chars = .returns n self1) :
    self1.data = self.data ∧ valid_tokens self1 ∧ n = self1.tokens.length := by
  unfold string.tokenize_any at h
  simp only at h
  have hv : valid_tokens { self with tokens := [] } := by intro p hp; simp at hp
  rcases tokenize_any_loop_inv delimiters quote_chars
      (({ self with tokens := [] } : string).size + 1)
      0 0 { self with tokens := [] } (le_refl _) hv with hd | ⟨s2, hr, hd, hv2⟩
  · have hd' := hd
    simp only [string.size] at hd'
    simp [string.size, hd', Outcome.bind] at h
  · have hr' := hr
    simp only [string.size] at hr'
    simp only [string.size, hr', Outcome.bind, Outcome.returns.injEq] at h
    obtain ⟨h1, h2⟩ := h
    subst h2
    exact ⟨hd, hv2, h1.symm⟩

theorem slice_of_valid (self : string) (p : Nat × Nat) (hp : p.1 < self.size) :
    ∃ t, self.slice p.1 p.2 = .returns t self := by
  have hp' : ¬ p.1 > self.data.length := by
    have : p.1 < self.data.length := hp
    omega
  refine ⟨string.of_std ((self.data.drop p.1).take (size_sub (size_add p.2 1) p.1)), ?_⟩
  simp [string.slice, std.string.substr, hp']

/-! ## Token access -/

/-- C2: on a value whose token cache was produced by `tokenize` or `tokenize_any`
on its current content, `get_token(N)` and `get_token_pos(N)` fail (with the
out-of-range error of the header) exactly when `N >= token_size()`; otherwise
`get_token_pos(N)` returns the `N`-th cached pair and `get_token(N)` returns the
slice between its two positions.  A freshly constructed value has
`token_size() = 0`, and `get_token(0)` and `get_token_pos(0)` fail on it. -/
theorem get_token_fails_iff (self : string) (delimiter quote_chars : List Char) (n : Nat)
    (self1 : string)
    (h : self.tokenize delimiter quote_chars = .returns n self1 ∨
      self.tokenize_any delimiter quote_chars = .returns n self1) (N : Nat) :
    self1.data = self.data ∧
    ((∃ e post, self1.get_token N = .throws e post) ↔ N ≥ self1.token_size) ∧
    ((∃ e post, self1.get_token_pos N = .throws e post) ↔ N ≥ self1.token_size) ∧
    (N ≥ self1.token_size →
      self1.get_token N
        = .throws (string.token_error "mad::string::get_token(): " N self1.token_size) self1 ∧
      self1.get_token_pos N
        = .throws (string.token_error "mad::string::get_token_pos(): " N self1.token_size)
            self1) ∧
    (N < self1.token_size → ∃ p t, self1.tokens[N]? = some p ∧
      self1.get_token_pos N = .returns p self1 ∧
      self1.slice p.1 p.2 = .returns t self1 ∧
      self1.get_token N = .returns t self1) ∧
    (∀ s : List Char, (string.of_std s).token_size = 0 ∧
      (∃ e, (string.of_std s).get_token 0 = .throws e (string.of_std s)) ∧
      (∃ e, (string.of_std s).get_token_pos 0 = .throws e (string.of_std s))) := by
  have hinv : self1.data = self.data ∧ valid_tokens self1 := by
    rcases h with h | h
    · exact ⟨(tokenize_returns_inv _ _ _ _ _ h).1, (tokenize_returns_inv _ _ _ _ _ h).2.1⟩
    · exact ⟨(tokenize_any_returns_inv _ _ _ _ _ h).1, (tokenize_any_returns_inv _ _ _ _ _ h).2.1⟩
  obtain ⟨hdata, hv⟩ := hinv
  have hge : N ≥ self1.token_size →
      self1.get_token N
        = .throws (string.token_error "mad::string::get_token(): " N self1.token_size) self1 ∧
      self1.get_token_pos N
        = .throws (string.token_error "mad::string::get_token_pos(): " N self1.token_size)
            self1 := by
    intro hN
    have hN' : N ≥ self1.tokens.length := hN
    constructor
    · unfold string.get_token
      rw [if_pos hN']
      rfl
    · unfold string.get_token_pos
      rw [if_pos hN']
      rfl
  have hlt : N < self1.token_size → ∃ p t, self1.tokens[N]? = some p ∧
      self1.get_token_pos N = .returns p self1 ∧
      self1.slice p.1 p.2 = .returns t self1 ∧
      self1.get_token N = .returns t self1 := by
    intro hN
    have hN' : N < self1.tokens.length := hN
    have hget : self1.tokens[N]? = some (self1.tokens[N]) := List.getElem?_eq_getElem hN'
    obtain ⟨t, ht⟩ := slice_of_valid self1 (self1.tokens[N])
      (hv _ (List.getElem_mem hN')).1
    refine ⟨self1.tokens[N], t, hget, ?_, ht, ?_⟩
    · unfold string.get_token_pos
      rw [if_neg (by omega), List.get?_eq_getElem?, hget]
    · unfold string.get_token
      rw [if_neg (by omega), List.get?_eq_getElem?, hget]
      exact ht
  refine ⟨hdata, ⟨?_, fun hN => ⟨_, _, (hge hN).1⟩⟩, ⟨?_, fun hN => ⟨_, _, (hge hN).2⟩⟩,
    hge, hlt, ?_⟩
  · rintro ⟨e, post, he⟩
    by_contra hN
    obtain ⟨p, t, -, -, -, h4⟩ := hlt (by omega)
    rw [h4] at he
    cases he
  · rintro ⟨e, post, he⟩
    by_contra hN
    obtain ⟨p, t, -, h2, -, -⟩ := hlt (by omega)
    rw [h2] at he
    cases he
  · intro s
    exact ⟨rfl, ⟨_, rfl⟩, ⟨_, rfl⟩⟩

set_option maxRecDepth 100000 in
theorem get_token_fails_iff_witness :
    ((lit "a b").tokenize [' '] [] = .returns 2 ⟨"a b".toList, [(0, 0), (2, 2)]⟩ ∨
      (lit "a b").tokenize_any [' '] [] = .returns 2 ⟨"a b".toList, [(0, 0), (2, 2)]⟩) ∧
    ((∃ e post, string.get_token ⟨"a b".toList, [(0, 0), (2, 2)]⟩ 2 = .throws e post) ↔
      2 ≥ string.token_size ⟨"a b".toList, [(0, 0), (2, 2)]⟩) :=
  ⟨Or.inl (by decide),
    (get_token_fails_iff (lit "a b") [' '] [] 2 ⟨"a b".toList, [(0, 0), (2, 2)]⟩
      (Or.inl (by decide)) 2).2.1⟩

/-! ## Tokenizing without quote characters -/

theorem intercalate_singleton (d t : List Char) : d.intercalate [t] = t := by
  simp [List.intercalate]

theorem intercalate_cons_cons (d t u : List Char) (ts : List (List Char)) :
    d.intercalate (t :: u :: ts) = t ++ (d ++ d.intercalate (u :: ts)) := by
  simp [List.intercalate]

theorem token_span_nil (c : List Char) (acc : List (Nat × Nat)) (i last : Nat)
    (hi : i < c.length) :
    string.token_span ⟨c, acc⟩ [] c.length i last
      = .ok (last, if i > 0 ∧ i + 1 < c.length then i - 1 else i) := by
  unfold string.token_span
  simp only
  generalize ht : (if i > 0 ∧ i + 1 < c.length then i - 1 else i) = temp
  have hlt : temp < c.length := by
    rw [← ht]
    split <;> omega
  split
  · rw [charAt_of_lt _ _ hlt]
    simp [has_char_nil]
  · rfl

theorem prefix_iff_take_eq (d l : List Char) : List.take d.length l = d ↔ d <+: l := by
  rw [List.prefix_iff_eq_take]
  exact eq_comm

theorem tokenize_body_nil (d c : List Char) (acc : List (Nat × Nat)) (i last : Nat)
    (hi : i < c.length) :
    string.tokenize_body d [] c.length i last ⟨c, acc⟩ =
      if i + 1 = c.length ∨ d <+: c.drop i then
        .ok (i + d.length, i + d.length,
          ⟨c, acc ++ [(last, if i > 0 ∧ i + 1 < c.length then i - 1 else i)]⟩)
      else .ok (i + 1, last, ⟨c, acc⟩) := by
  unfold string.tokenize_body
  rw [charAt_of_lt _ _ hi]
  simp only [quote_jump_nil, token_span_nil c acc i last hi]
  by_cases h1 : i + 1 = c.length
  · simp [h1]
  · rw [if_neg h1, compare_eq_zero_of_le _ _ _ _ (by omega)]
    by_cases h2 : d <+: c.drop i
    · have : List.take d.length (List.drop i c) = d := (prefix_iff_take_eq _ _).mpr h2
      simp [h1, h2, this]
    · have : ¬ List.take d.length (List.drop i c) = d := fun h => h2 ((prefix_iff_take_eq _ _).mp h)
      simp [h1, h2, this]

theorem tokenize_loop_skip (d c : List Char) (acc : List (Nat × Nat)) (fuel i last : Nat)
    (hi : i + 1 < c.length) (hno : ¬ d <+: c.drop i) :
    string.tokenize_loop d [] c.length (fuel + 1) i last ⟨c, acc⟩
      = string.tokenize_loop d [] c.length fuel (i + 1) last ⟨c, acc⟩ := by
  rw [string.tokenize_loop, if_pos (by omega), tokenize_body_nil _ _ _ _ _ (by omega),
    if_neg (by intro h; rcases h with h | h; omega; exact hno h)]

theorem tokenize_loop_delim (d c : List Char) (acc : List (Nat × Nat)) (fuel i last : Nat)
    (hi : i + 1 < c.length) (h0 : 0 < i) (hm : d <+: c.drop i) :
    string.tokenize_loop d [] c.length (fuel + 1) i last ⟨c, acc⟩
      = string.tokenize_loop d [] c.length fuel (i + d.length) (i + d.length)
          ⟨c, acc ++ [(last, i - 1)]⟩ := by
  rw [string.tokenize_loop, if_pos (by omega), tokenize_body_nil _ _ _ _ _ (by omega),
    if_pos (Or.inr hm), if_pos ⟨h0, hi⟩]

theorem tokenize_loop_last (d c : List Char) (acc : List (Nat × Nat)) (fuel i last : Nat)
    (hi : i + 1 = c.length) (hd : d ≠ []) :
    string.tokenize_loop d [] c.length (fuel + 2) i last ⟨c, acc⟩
      = .returns () ⟨c, acc ++ [(last, i)]⟩ := by
  have hlen : 0 < d.length := List.length_pos.mpr hd
  rw [string.tokenize_loop, if_pos (by omega), tokenize_body_nil _ _ _ _ _ (by omega),
    if_pos (Or.inl hi), if_neg (by omega)]
  simp only
  rw [string.tokenize_loop, if_neg (by omega)]

theorem tokenize_loop_scan (d c : List Char) (acc : List (Nat × Nat)) (last : Nat) :
    ∀ (m fuel i : Nat), i + m < c.length →
      (∀ j, i ≤ j → j < i + m → ¬ d <+: c.drop j) →
      string.tokenize_loop d [] c.length (fuel + m) i last ⟨c, acc⟩
        = string.tokenize_loop d [] c.length fuel (i + m) last ⟨c, acc⟩ := by
  intro m
  induction m with
  | zero => intro fuel i _ _; rfl
  | succ m ih =>
    intro fuel i hlen hno
    rw [show fuel + (m + 1) = (fuel + m) + 1 by omega,
      tokenize_loop_skip _ _ _ _ _ _ (by omega) (hno i (le_refl _) (by omega)),
      ih fuel (i + 1) (by omega) (fun j h1 h2 => hno j (by omega) (by omega)),
      show i + 1 + m = i + (m + 1) by omega]

theorem intercalate_ne_nil (d : List Char) :
    ∀ ts : List (List Char), ts ≠ [] → ts.getLast? ≠ some [] → d.intercalate ts ≠ [] := by
  intro ts
  induction ts with
  | nil => intro h; exact absurd rfl h
  | cons t ts ih =>
    intro _ hlast
    cases ts with
    | nil =>
      rw [intercalate_singleton]
      intro h
      apply hlast
      simp [h]
    | cons u rest =>
      rw [intercalate_cons_cons]
      have := ih (by simp) (by simpa [List.getLast?_cons_cons] using hlast)
      simp [this]

/-- The loop of `tokenize`, without quote characters, started at the first
character of a field of a text that is a sequence of fields joined by the
delimiter: it caches one pair per field and exits. -/
theorem tokenize_loop_fields (d : List Char) (hd : d ≠ []) :
    ∀ (ts : List (List Char)) (pre : List Char) (acc : List (Nat × Nat)) (extra : Nat)
      (c : List Char), c = pre ++ d.intercalate ts →
      ts ≠ [] → ts.getLast? ≠ some [] → (pre ≠ [] ∨ ts.head? ≠ some []) →
      no_early_match d ts →
      string.tokenize_loop d [] c.length (extra + (d.intercalate ts).length + 1)
          pre.length pre.length ⟨c, acc⟩
        = .returns () ⟨c, acc ++ field_spans d.length pre.length ts⟩ := by
  have hdl : 0 < d.length := List.length_pos.mpr hd
  intro ts
  induction ts with
  | nil => intro _ _ _ _ _ h; exact absurd rfl h
  | cons t ts ih =>
    intro pre acc extra c hc _ hlast hfirst hno
    cases ts with
    | nil =>
      have ht : t ≠ [] := by
        intro h
        apply hlast
        simp [h]
      have htl : 0 < t.length := List.length_pos.mpr ht
      rw [intercalate_singleton] at hc ⊢
      have hclen : c.length = pre.length + t.length := by simp [hc]
      have hscan := tokenize_loop_scan d c acc pre.length (t.length - 1) (extra + 2) pre.length
        (by omega) (by
          intro j hj1 hj2
          have := hno.1 (j - pre.length) (by omega)
          rw [intercalate_singleton] at this
          rw [hc, List.drop_append_eq_append_drop, List.drop_eq_nil_of_le (by omega),
            List.nil_append]
          exact this)
      rw [show extra + t.length + 1 = extra + 2 + (t.length - 1) by omega, hscan,
        tokenize_loop_last _ _ _ _ _ _ (by omega) hd]
      simp only [field_spans, Outcome.returns.injEq, string.mk.injEq, true_and]
      simp only [List.append_cancel_left_eq, List.cons.injEq, Prod.mk.injEq, true_and, and_true]
      omega
    | cons u rest =>
      rw [intercalate_cons_cons] at hc ⊢
      have hJ : d.intercalate (u :: rest) ≠ [] :=
        intercalate_ne_nil d (u :: rest) (by simp)
          (by simpa [List.getLast?_cons_cons] using hlast)
      have hJl : 0 < (d.intercalate (u :: rest)).length := List.length_pos.mpr hJ
      have hclen : c.length
          = pre.length + t.length + d.length + (d.intercalate (u :: rest)).length := by
        simp [hc]; omega
      have hscan := tokenize_loop_scan d c acc pre.length t.length
        (extra + d.length + (d.intercalate (u :: rest)).length + 1) pre.length
        (by omega) (by
          intro j hj1 hj2
          have := hno.1 (j - pre.length) (by omega)
          rw [intercalate_cons_cons] at this
          rw [hc, List.drop_append_eq_append_drop, List.drop_eq_nil_of_le (by omega),
            List.nil_append]
          exact this)
      have hpos : 0 < pre.length + t.length := by
        rcases hfirst with h | h
        · have := List.length_pos.mpr h; omega
        · have : t ≠ [] := by
            intro ht
            apply h
            simp [ht]
          have := List.length_pos.mpr this; omega
      have hmatch : d <+: c.drop (pre.length + t.length) := by
        rw [hc, ← List.append_assoc, List.drop_append_eq_append_drop,
          List.drop_eq_nil_of_le (by simp), List.nil_append]
        simp
      have hih := ih (pre ++ t ++ d) (acc ++ [(pre.length, pre.length + t.length - 1)])
        (extra + d.length - 1) c (by simp [hc]) (by simp)
        (by simpa [List.getLast?_cons_cons] using hlast) (Or.inl (by simp [hd])) hno.2
      rw [show extra + (t ++ (d ++ d.intercalate (u :: rest))).length + 1
          = extra + d.length + (d.intercalate (u :: rest)).length + 1 + t.length by
            simp; omega,
        hscan, tokenize_loop_delim _ _ _ _ _ _ (by omega) hpos hmatch]
      simp only [List.length_append] at hih
      rw [show extra + d.length - 1 + (d.intercalate (u :: rest)).length + 1
          = extra + d.length + (d.intercalate (u :: rest)).length by omega] at hih
      rw [hih]
      simp [field_spans]

theorem field_spans_length (dl : Nat) :
    ∀ (ts : List (List Char)) (p : Nat), (field_spans dl p ts).length = ts.length := by
  intro ts
  induction ts with
  | nil => intro p; rfl
  | cons t ts ih => intro p; simp [field_spans, ih]

/-- The slice between the two positions cached for a field is the field. -/
theorem field_spans_slice (d : List Char) (hd : d ≠ []) (c : List Char)
    (toks : List (Nat × Nat)) (hsize : c.length < SIZE_MOD) :
    ∀ (ts : List (List Char)) (pre : List Char), c = pre ++ d.intercalate ts →
      (pre ≠ [] ∨ ts.head? ≠ some []) →
      ∀ (k : Nat) (hk : k < ts.length),
        ∃ pr, (field_spans d.length pre.length ts)[k]? = some pr ∧
          string.slice ⟨c, toks⟩ pr.1 pr.2 = .returns (string.of_std ts[k]) ⟨c, toks⟩ := by
  have hdl : 0 < d.length := List.length_pos.mpr hd
  intro ts
  induction ts with
  | nil => intro _ _ _ k hk; exact absurd hk (by simp)
  | cons t ts ih =>
    intro pre hc hfirst k hk
    have hpos : 0 < pre.length + t.length := by
      rcases hfirst with h | h
      · have := List.length_pos.mpr h; omega
      · have : t ≠ [] := by
          intro ht
          apply h
          simp [ht]
        have := List.length_pos.mpr this; omega
    have hpre : ∃ post, c = pre ++ (t ++ post) := by
      cases ts with
      | nil => exact ⟨[], by simpa [intercalate_singleton] using hc⟩
      | cons u rest => exact ⟨_, by rw [hc, intercalate_cons_cons]⟩
    obtain ⟨post, hpost⟩ := hpre
    cases k with
    | zero =>
      refine ⟨(pre.length, pre.length + t.length - 1), by simp [field_spans], ?_⟩
      have hlen : c.length = pre.length + t.length + post.length := by
        simp [hpost]; omega
      rw [slice_of_le ⟨c, toks⟩ _ _ hsize (by simp only; omega)
        (by simp only [string.size]; omega)]
      simp only [List.getElem_cons_zero, Outcome.returns.injEq, and_true]
      congr 1
      rw [hpost, List.drop_left, show pre.length + t.length - 1 + 1 - pre.length = t.length by omega,
        List.take_left]
    | succ k =>
      cases ts with
      | nil => simp at hk
      | cons u rest =>
        have hk' : k < (u :: rest).length := by simpa using hk
        obtain ⟨pr, h1, h2⟩ := ih (pre ++ t ++ d)
          (by rw [hc, intercalate_cons_cons]; simp) (Or.inl (by simp [hd])) k hk'
        refine ⟨pr, ?_, ?_⟩
        · simp only [field_spans, List.getElem?_cons_succ]
          simp only [field_spans, List.length_append] at h1
          exact h1
        · simpa using h2

/-- Tokenizing, without quote characters, a text that is a sequence of fields
joined by the delimiter, where the first and the last field are not empty and
the delimiter matches at no position inside a field: one token per field. -/
theorem tokenize_fields (self : string) (d : List Char) (ts : List (List Char))
    (hd : d ≠ []) (hc : self.data = d.intercalate ts) (hts : ts ≠ [])
    (hfirst : ts.head? ≠ some []) (hlast : ts.getLast? ≠ some [])
    (hno : no_early_match d ts) :
    self.tokenize d [] = .returns ts.length ⟨self.data, field_spans d.length 0 ts⟩ := by
  have h := tokenize_loop_fields d hd ts [] [] 0 self.data (by simpa using hc) hts hlast
    (Or.inr hfirst) hno
  unfold string.tokenize
  simp only [string.size]
  rw [hc] at h ⊢
  simp only [zero_add, List.length_nil, List.nil_append] at h
  rw [h]
  simp [Outcome.bind, field_spans_length]

/-- After `tokenize_fields`, every token is its field. -/
theorem get_token_fields (c : List Char) (d : List Char) (ts : List (List Char))
    (hd : d ≠ []) (hc : c = d.intercalate ts) (hsize : c.length < SIZE_MOD)
    (hfirst : ts.head? ≠ some []) (k : Nat) (hk : k < ts.length) :
    string.get_token ⟨c, field_spans d.length 0 ts⟩ k
      = .returns (string.of_std ts[k]) ⟨c, field_spans d.length 0 ts⟩ := by
  obtain ⟨pr, h1, h2⟩ := field_spans_slice d hd c (field_spans d.length 0 ts) hsize ts []
    (by simpa using hc) (Or.inr hfirst) k hk
  unfold string.get_token
  simp only [field_spans_length, List.get?_eq_getElem?]
  rw [if_neg (by omega)]
  simp only [List.length_nil] at h1
  rw [h1]
  exact h2

theorem splitOn_cons (ch x : Char) (xs : List Char) :
    (x :: xs).splitOn ch =
      if x = ch then [] :: xs.splitOn ch else (xs.splitOn ch).modifyHead (List.cons x) := by
  simp only [List.splitOn, List.splitOnP_cons, beq_iff_eq]

theorem splitOn_ne_nil (ch : Char) (xs : List Char) : xs.splitOn ch ≠ [] :=
  List.splitOnP_ne_nil _ _

theorem splitOn_length (ch : Char) :
    ∀ xs : List Char, (xs.splitOn ch).length = xs.count ch + 1 := by
  intro xs
  induction xs with
  | nil => rfl
  | cons x xs ih =>
    rw [splitOn_cons]
    split
    · rename_i h
      subst h
      simp [ih]
    · rename_i h
      rw [List.length_modifyHead, ih, List.count_cons_of_ne (Ne.symm h)]

theorem splitOn_not_mem (ch : Char) :
    ∀ xs : List Char, ∀ t ∈ xs.splitOn ch, ch ∉ t := by
  intro xs
  induction xs with
  | nil => intro t ht; simp at ht; subst ht; simp
  | cons x xs ih =>
    intro t ht
    rw [splitOn_cons] at ht
    split at ht
    · rcases List.mem_cons.mp ht with h | h
      · subst h; simp
      · exact ih t h
    · rename_i hx
      cases hs : xs.splitOn ch with
      | nil => exact absurd hs (splitOn_ne_nil ch xs)
      | cons u us =>
        rw [hs] at ht ih
        simp only [List.modifyHead_cons, List.mem_cons] at ht
        rcases ht with h | h
        · subst h
          have := ih u (by simp)
          simp only [List.mem_cons, not_or]
          exact ⟨fun h => hx h.symm, this⟩
        · exact ih t (by simp [h])

theorem splitOn_head (ch : Char) (xs : List Char) (hb : xs.head? ≠ some ch) (hne : xs ≠ []) :
    (xs.splitOn ch).head? ≠ some [] := by
  cases xs with
  | nil => exact absurd rfl hne
  | cons x xs =>
    have hx : x ≠ ch := by simpa using hb
    rw [splitOn_cons, if_neg hx]
    cases hs : xs.splitOn ch with
    | nil => exact absurd hs (splitOn_ne_nil ch xs)
    | cons u us => simp

theorem splitOn_getLast (ch : Char) :
    ∀ xs : List Char, xs ≠ [] → xs.getLast? ≠ some ch → (xs.splitOn ch).getLast? ≠ some [] := by
  intro xs
  induction xs with
  | nil => intro h; exact absurd rfl h
  | cons x xs ih =>
    intro _ he
    cases xs with
    | nil =>
      have hx : x ≠ ch := by simpa using he
      rw [splitOn_cons, if_neg hx]
      simp [List.splitOn]
    | cons y ys =>
      have ih' := ih (by simp) (by simpa [List.getLast?_cons_cons] using he)
      rw [splitOn_cons]
      cases hs : (y :: ys).splitOn ch with
      | nil => exact absurd hs (splitOn_ne_nil ch _)
      | cons u us =>
        rw [hs] at ih'
        split
        · simpa [List.getLast?_cons_cons] using ih'
        · cases us with
          | nil => simp
          | cons v vs =>
            simpa [List.getLast?_cons_cons] using ih'

theorem intercalate_cons_append (d t : List Char) (ts : List (List Char)) :
    ∃ post, d.intercalate (t :: ts) = t ++ post := by
  cases ts with
  | nil => exact ⟨[], by simp [intercalate_singleton]⟩
  | cons u rest => exact ⟨_, intercalate_cons_cons d t u rest⟩

theorem no_early_match_of_not_mem (ch : Char) :
    ∀ ts : List (List Char), (∀ t ∈ ts, ch ∉ t) → no_early_match [ch] ts := by
  intro ts
  induction ts with
  | nil => intro _; trivial
  | cons t ts ih =>
    intro h
    refine ⟨?_, ih fun u hu => h u (List.mem_cons_of_mem _ hu)⟩
    intro j hj hpre
    obtain ⟨post, hpost⟩ := intercalate_cons_append [ch] t ts
    rw [hpost, List.drop_append_of_le_length (by omega)] at hpre
    have hmem : ch ∈ t.drop j := by
      cases hdrop : t.drop j with
      | nil =>
        have := List.drop_eq_nil_iff.mp hdrop
        omega
      | cons y ys =>
        rw [hdrop] at hpre
        have := List.cons_prefix_cons.mp hpre
        rw [this.1]
        simp
    exact h t (List.mem_cons_self _ _) (List.mem_of_mem_drop hmem)

/-- C3: on a non-empty content that neither begins nor ends with the character
`ch`, `tokenize` with the one-character delimiter `ch` and no quote characters
returns the number of occurrences of `ch` plus one and caches, in order, one
pair per `ch`-separated field: the index of its first and of its last
character, an empty field at `p` being cached as `(p, p - 1)`; `get_token(k)`
is then the `k`-th field.  On `"this is a string of arguments"` with `" "` the
count is 6, token 3 is `"string"` and its positions are `(10, 15)`. -/
theorem tokenize_one_char_fields (self : string) (ch : Char) (hne : self.data ≠ [])
    (hb : self.data.head? ≠ some ch) (he : self.data.getLast? ≠ some ch)
    (hsize : self.size < SIZE_MOD) :
    self.tokenize [ch] []
      = .returns (self.data.count ch + 1)
          ⟨self.data, field_spans 1 0 (self.data.splitOn ch)⟩ ∧
    [ch].intercalate (self.data.splitOn ch) = self.data ∧
    (self.data.splitOn ch).length = self.data.count ch + 1 ∧
    (∀ (k : Nat) (hk : k < (self.data.splitOn ch).length),
      string.get_token ⟨self.data, field_spans 1 0 (self.data.splitOn ch)⟩ k
        = .returns (string.of_std (self.data.splitOn ch)[k])
            ⟨self.data, field_spans 1 0 (self.data.splitOn ch)⟩) ∧
    ∃ s1, (lit "this is a string of arguments").tokenize [' '] [] = .returns 6 s1 ∧
      s1.get_token 3 = .returns (lit "string") s1 ∧
      s1.get_token_pos 3 = .returns (10, 15) s1 := by
  have hjoin : [ch].intercalate (self.data.splitOn ch) = self.data :=
    List.intercalate_splitOn _ ch
  have hfirst := splitOn_head ch self.data hb hne
  refine ⟨?_, hjoin, splitOn_length ch _, ?_, ?_⟩
  · have h := tokenize_fields self [ch] (self.data.splitOn ch) (by simp) hjoin.symm
      (splitOn_ne_nil ch _) hfirst (splitOn_getLast ch _ hne he)
      (no_early_match_of_not_mem ch _ (splitOn_not_mem ch _))
    rw [splitOn_length] at h
    exact h
  · intro k hk
    exact get_token_fields self.data [ch] (self.data.splitOn ch) (by simp) hjoin.symm hsize
      hfirst k hk
  · exact ⟨⟨"this is a string of arguments".toList,
      [(0, 3), (5, 6), (8, 8), (10, 15), (17, 18), (20, 28)]⟩, by decide, by decide, by decide⟩

theorem tokenize_one_char_fields_witness :
    (lit "a,,b").data ≠ [] ∧ (lit "a,,b").data.head? ≠ some ',' ∧
    (lit "a,,b").data.getLast? ≠ some ',' ∧ (lit "a,,b").size < SIZE_MOD ∧
    (lit "a,,b").tokenize [','] []
      = .returns ((lit "a,,b").data.count ',' + 1)
          ⟨(lit "a,,b").data, field_spans 1 0 ((lit "a,,b").data.splitOn ',')⟩ ∧
    field_spans 1 0 ((lit "a,,b").data.splitOn ',') = [(0, 0), (2, 1), (3, 3)] :=
  ⟨by decide, by decide, by decide, by decide,
    (tokenize_one_char_fields (lit "a,,b") ',' (by decide) (by decide) (by decide)
      (by decide)).1, by decide⟩

/-- C4, as stated, fails: with the delimiter `"aa"` the tokens `"a"` and `"b"` are
non-empty and do not contain the delimiter, but in `"a" + "aa" + "b" = "aaab"`
the delimiter already matches at index 0, and the second token read back is
`"ab"`. -/
theorem tokenize_round_trip_counterexample :
    ¬ ∀ (d : List Char) (ts : List (List Char)), d ≠ [] → ts ≠ [] →
      (∀ t ∈ ts, t ≠ [] ∧ ¬ d <:+: t) →
      ∃ s1, (string.of_std (d.intercalate ts)).tokenize d [] = .returns ts.length s1 ∧
        ∀ (k : Nat) (hk : k < ts.length), s1.get_token k = .returns (string.of_std ts[k]) s1 := by
  intro h
  obtain ⟨s1, h1, h2⟩ := h ['a', 'a'] [['a'], ['b']] (by decide) (by decide) (by decide)
  have e : (string.of_std (['a', 'a'].intercalate [['a'], ['b']])).tokenize ['a', 'a'] []
      = .returns 2 ⟨['a', 'a', 'a', 'b'], [(0, 0), (2, 3)]⟩ := by decide
  rw [e] at h1
  simp only [List.length_cons, List.length_nil, Outcome.returns.injEq, true_and] at h1
  subst h1
  have h3 := h2 1 (by decide)
  revert h3
  decide

/-- C4, amended: for a non-empty delimiter `d` and a non-empty sequence of
non-empty strings `t1..tn` such that no occurrence of `d` in the content
`t1 + d + t2 + d + ... + tn` starts at a position inside one of the tokens (so
that, in particular, no token contains `d`), `tokenize(d)` without quote
characters returns `n` and `get_token(k)` is `t(k+1)` for every `k < n`. -/
theorem tokenize_round_trip (self : string) (d : List Char) (ts : List (List Char))
    (hd : d ≠ []) (hts : ts ≠ []) (hne : ∀ t ∈ ts, t ≠ [])
    (hno : no_early_match d ts) (hc : self.data = d.intercalate ts)
    (hsize : self.size < SIZE_MOD) :
    ∃ s1, self.tokenize d [] = .returns ts.length s1 ∧ s1.data = self.data ∧
      ∀ (k : Nat) (hk : k < ts.length), s1.get_token k = .returns (string.of_std ts[k]) s1 := by
  have hfirst : ts.head? ≠ some [] := by
    intro h
    exact hne [] (List.mem_of_mem_head? h) rfl
  have hlast : ts.getLast? ≠ some [] := by
    intro h
    exact hne [] (List.mem_of_getLast?_eq_some h) rfl
  refine ⟨_, tokenize_fields self d ts hd hc hts hfirst hlast hno, rfl, ?_⟩
  intro k hk
  exact get_token_fields self.data d ts hd hc hsize hfirst k hk

theorem tokenize_round_trip_witness :
    (['a', 'b'] : List Char) ≠ [] ∧ ([['a'], ['b'], ['c', 'd']] : List (List Char)) ≠ [] ∧
    (∀ t ∈ ([['a'], ['b'], ['c', 'd']] : List (List Char)), t ≠ []) ∧
    no_early_match ['a', 'b'] [['a'], ['b'], ['c', 'd']] ∧
    (lit "aabbabcd").data = ['a', 'b'].intercalate [['a'], ['b'], ['c', 'd']] ∧
    (lit "aabbabcd").size < SIZE_MOD ∧
    ∃ s1, (lit "aabbabcd").tokenize ['a', 'b'] [] = .returns 3 s1 ∧
      s1.data = (lit "aabbabcd").data ∧
      ∀ (k : Nat) (hk : k < 3), s1.get_token k
        = .returns (string.of_std ([['a'], ['b'], ['c', 'd']] : List (List Char))[k]) s1 :=
  have hno : no_early_match ['a', 'b'] [['a'], ['b'], ['c', 'd']] := by
    refine ⟨fun j hj => ?_, fun j hj => ?_, fun j hj => ?_, trivial⟩
    · have : j = 0 := by simpa using hj
      subst this; decide
    · have : j = 0 := by simpa using hj
      subst this; decide
    · have : j = 0 ∨ j = 1 := by simp at hj; omega
      rcases this with h | h <;> subst h <;> decide
  ⟨by decide, by decide, by decide, hno, by decide, by decide,
    tokenize_round_trip (lit "aabbabcd") ['a', 'b'] [['a'], ['b'], ['c', 'd']]
      (by decide) (by decide) (by decide) hno (by decide) (by decide)⟩

/-! ## Trimming a literal pattern -/

theorem find_scan_some (str : List Char) :
    ∀ (l : List Char) (i t : Nat), std.string.find_scan str l i = some t →
      i ≤ t ∧ t ≤ i + l.length ∧ str <+: l.drop (t - i) := by
  intro l
  induction l with
  | nil =>
    intro i t h
    unfold std.string.find_scan at h
    split at h
    · rename_i hp
      have : i = t := by simpa using h
      subst this
      exact ⟨le_refl _, by simp, by simpa using List.isPrefixOf_iff_prefix.mp hp⟩
    · cases h
  | cons c cs ih =>
    intro i t h
    unfold std.string.find_scan at h
    split at h
    · rename_i hp
      have : i = t := by simpa using h
      subst this
      exact ⟨le_refl _, by simp, by simpa using List.isPrefixOf_iff_prefix.mp hp⟩
    · obtain ⟨h1, h2, h3⟩ := ih (i + 1) t h
      refine ⟨by omega, by simp only [List.length_cons]; omega, ?_⟩
      rw [show t - i = (t - (i + 1)) + 1 by omega, List.drop_succ_cons]
      exact h3

theorem find_scan_none (str : List Char) :
    ∀ (l : List Char) (i : Nat), std.string.find_scan str l i = none →
      ∀ k, ¬ str <+: l.drop k := by
  intro l
  induction l with
  | nil =>
    intro i h k
    unfold std.string.find_scan at h
    split at h
    · cases h
    · rename_i hp
      simpa using fun hx => hp (List.isPrefixOf_iff_prefix.mpr hx)
  | cons c cs ih =>
    intro i h k
    unfold std.string.find_scan at h
    split at h
    · cases h
    · rename_i hp
      cases k with
      | zero => simpa using fun hx => hp (List.isPrefixOf_iff_prefix.mpr hx)
      | succ k => rw [List.drop_succ_cons]; exact ih (i + 1) h k

theorem find_scan_prefix (str l : List Char) (i : Nat) (h : str <+: l) :
    std.string.find_scan str l i = some i := by
  cases l with
  | nil => unfold std.string.find_scan; rw [if_pos (List.isPrefixOf_iff_prefix.mpr h)]
  | cons c cs => unfold std.string.find_scan; rw [if_pos (List.isPrefixOf_iff_prefix.mpr h)]

theorem find_scan_not_prefix (str l : List Char) (i : Nat) (h : ¬ str <+: l) :
    std.string.find_scan str l i ≠ some i := by
  cases l with
  | nil =>
    unfold std.string.find_scan
    rw [if_neg (fun hp => h (List.isPrefixOf_iff_prefix.mp hp))]
    simp
  | cons c cs =>
    unfold std.string.find_scan
    rw [if_neg (fun hp => h (List.isPrefixOf_iff_prefix.mp hp))]
    intro hs
    have := (find_scan_some str cs (i + 1) i hs).1
    omega

/-- The test `find(str) == 0`: whether the text begins with `str`. -/
theorem find_eq_zero_iff (l str : List Char) :
    std.string.find l str 0 = some 0 ↔ str <+: l := by
  unfold std.string.find
  rw [if_neg (by omega), List.drop_zero]
  constructor
  · intro h
    by_contra hn
    exact find_scan_not_prefix str l 0 hn h
  · exact find_scan_prefix str l 0

theorem infix_iff_prefix_drop (str l : List Char) :
    str <:+: l ↔ ∃ k, str <+: l.drop k := by
  constructor
  · rintro ⟨s, t, rfl⟩
    exact ⟨s.length, by simp⟩
  · rintro ⟨k, r, hr⟩
    refine ⟨l.take k, r, ?_⟩
    rw [List.append_assoc, hr, List.take_append_drop]

/-- A position found by `find(str)`: the text is a prefix of that length, then
`str`, then the rest. -/
theorem find_some (l str : List Char) (pos : Nat) (h : std.string.find l str 0 = some pos) :
    ∃ P R, l = P ++ (str ++ R) ∧ P.length = pos := by
  unfold std.string.find at h
  rw [if_neg (by omega), List.drop_zero] at h
  obtain ⟨-, h2, r, hr⟩ := find_scan_some str l 0 pos h
  refine ⟨l.take pos, r, ?_, ?_⟩
  · rw [Nat.sub_zero] at hr
    rw [hr, List.take_append_drop]
  · rw [List.length_take]
    omega

theorem find_none (l str : List Char) (h : std.string.find l str 0 = none) : ¬ str <:+: l := by
  unfold std.string.find at h
  rw [if_neg (by omega), List.drop_zero] at h
  rw [infix_iff_prefix_drop]
  rintro ⟨k, hk⟩
  exact find_scan_none str l 0 h k hk

theorem find_none_of_absent (l str : List Char) (h : ¬ str <:+: l) :
    std.string.find l str 0 = none := by
  cases hf : std.string.find l str 0 with
  | none => rfl
  | some pos =>
    obtain ⟨P, R, hl, -⟩ := find_some l str pos hf
    exact absurd ⟨P, R, by rw [hl, List.append_assoc]⟩ h

theorem erase_of_le (l : List Char) (pos n : Nat) (h : pos ≤ l.length) :
    std.string.erase l pos n = .ok (l.take pos ++ (l.drop pos).drop n) := by
  unfold std.string.erase
  rw [if_neg (by omega)]

theorem trim_front_fix (str : List Char) (fuel : Nat) (self : string)
    (h : ¬ str <+: self.data) : string.trim_front str (fuel + 1) self = .returns () self := by
  unfold string.trim_front
  rw [if_neg (fun hf => h ((find_eq_zero_iff _ _).mp hf))]

/-- The first loop of `trim` exits, with a text that does not begin with `str`. -/
theorem trim_front_spec (str : List Char) (hstr : str ≠ []) :
    ∀ (fuel : Nat) (self : string), self.size < fuel →
      ∃ d1, string.trim_front str fuel self = .returns () ⟨d1, self.tokens⟩ ∧
        ¬ str <+: d1 ∧ d1.length ≤ self.size := by
  have hlen : 0 < str.length := List.length_pos.mpr hstr
  intro fuel
  induction fuel with
  | zero => intro self h; omega
  | succ fuel ih =>
    intro self hfuel
    by_cases hp : str <+: self.data
    · unfold string.trim_front
      rw [if_pos ((find_eq_zero_iff _ _).mpr hp), erase_of_le _ _ _ (by omega)]
      simp only [List.take_zero, List.drop_zero, List.nil_append]
      have hle : str.length ≤ self.data.length := hp.length_le
      have hsz : self.size = self.data.length := rfl
      obtain ⟨d1, h1, h2, h3⟩ := ih ⟨self.data.drop str.length, self.tokens⟩
        (by simp only [string.size, List.length_drop]; omega)
      refine ⟨d1, h1, h2, ?_⟩
      simp only [string.size, List.length_drop] at h3
      omega
    · exact ⟨self.data, trim_front_fix str fuel self hp, hp, le_refl _⟩

theorem trim_middle_fix (str : List Char) (fuel : Nat) (self : string)
    (h : ¬ (str ++ str) <:+: self.data) :
    string.trim_middle str (fuel + 1) self = .returns () self := by
  unfold string.trim_middle
  rw [find_none_of_absent _ _ h]

/-- Erasing one copy of a doubled `str` does not make the text begin with `str`. -/
theorem prefix_of_erase_double (str P R : List Char) (h : str <+: P ++ (str ++ R)) :
    str <+: P ++ (str ++ (str ++ R)) := by
  have h1 : str <+: P ++ str := by
    refine List.prefix_of_prefix_length_le h ?_ (by simp)
    rw [← List.append_assoc]
    exact List.prefix_append _ _
  refine h1.trans ?_
  rw [← List.append_assoc]
  exact List.prefix_append _ _

/-- The second loop of `trim` exits, with a text that has no doubled `str` and
still does not begin with `str`. -/
theorem trim_middle_spec (str : List Char) (hstr : str ≠ []) :
    ∀ (fuel : Nat) (self : string), self.size < fuel → ¬ str <+: self.data →
      ∃ d1, string.trim_middle str fuel self = .returns () ⟨d1, self.tokens⟩ ∧
        ¬ str <+: d1 ∧ ¬ (str ++ str) <:+: d1 ∧ d1.length ≤ self.size := by
  have hlen : 0 < str.length := List.length_pos.mpr hstr
  intro fuel
  induction fuel with
  | zero => intro self h; omega
  | succ fuel ih =>
    intro self hfuel hnp
    cases hf : std.string.find self.data (str ++ str) 0 with
    | none =>
      exact ⟨self.data, trim_middle_fix str fuel self (find_none _ _ hf), hnp,
        find_none _ _ hf, le_refl _⟩
    | some pos =>
      obtain ⟨P, R, hl, hP⟩ := find_some _ _ _ hf
      have hsz : self.size = P.length + (str.length + (str.length + R.length)) := by
        simp [string.size, hl]
      have herase : self.data.take pos ++ (self.data.drop pos).drop str.length
          = P ++ (str ++ R) := by
        rw [hl, ← hP, List.take_left, List.drop_left, List.append_assoc, List.drop_left]
      unfold string.trim_middle
      rw [hf]
      simp only
      rw [erase_of_le _ _ _ (by rw [← hP]; simp only [string.size] at hsz; omega), herase]
      simp only
      obtain ⟨d1, h1, h2, h3, h4⟩ := ih ⟨P ++ (str ++ R), self.tokens⟩
        (by simp only [string.size, List.length_append]; omega)
        (by
          intro hx
          apply hnp
          rw [hl, List.append_assoc]
          exact prefix_of_erase_double str P R hx)
      refine ⟨d1, h1, h2, h3, ?_⟩
      simp only [string.size, List.length_append] at h4
      omega

theorem size_sub_of_lt (a b : Nat) (hb : b < SIZE_MOD) (hab : a < b) :
    a < size_sub a b := by
  simp only [size_sub, SIZE_MOD] at *
  omega

theorem trim_back_throw (str : List Char) (fuel : Nat) (self : string)
    (hstr : str.length < SIZE_MOD) (h : self.size < str.length) :
    string.trim_back str (fuel + 1) self
      = .throws (.out_of_range "basic_string::compare") self := by
  have : size_sub self.size str.length > self.data.length :=
    size_sub_of_lt self.size str.length hstr h
  unfold string.trim_back std.string.compare_eq_zero
  simp only
  rw [if_pos this]

theorem suffix_iff_drop_eq (str l : List Char) (h : str.length ≤ l.length) :
    l.drop (l.length - str.length) = str ↔ str <:+ l := by
  constructor
  · intro hd
    have := List.take_append_drop (l.length - str.length) l
    rw [hd] at this
    exact ⟨_, this⟩
  · rintro ⟨s, rfl⟩
    simp

theorem trim_back_compare (str : List Char) (self : string) (hself : self.size < SIZE_MOD)
    (h : str.length ≤ self.size) :
    std.string.compare_eq_zero self.data (size_sub self.size str.length) npos str
      = .ok (decide (str <:+ self.data)) := by
  have hs : self.data.length < SIZE_MOD := hself
  have hle : str.length ≤ self.data.length := h
  rw [size_sub_of_le _ _ hself h, compare_eq_zero_of_le _ _ _ _ (by simp [string.size])]
  have htake : List.take npos (List.drop (self.size - str.length) self.data)
      = List.drop (self.size - str.length) self.data := by
    apply List.take_of_length_le
    simp only [string.size, List.length_drop, npos, SIZE_MOD] at *
    omega
  rw [htake]
  simp only [string.size, suffix_iff_drop_eq _ _ hle]

theorem trim_back_fix (str : List Char) (fuel : Nat) (self : string)
    (hself : self.size < SIZE_MOD)
    (h : str.length ≤ self.size) (hns : ¬ str <:+ self.data) :
    string.trim_back str (fuel + 1) self = .returns () self := by
  unfold string.trim_back
  simp only
  rw [trim_back_compare str self hself h]
  simp [hns]

/-- The third loop of `trim` either exits, with a text that does not end with
`str`, or finds the text shorter than `str` and throws. -/
theorem trim_back_spec (str : List Char) (hstr : str ≠ []) (hsl : str.length < SIZE_MOD) :
    ∀ (fuel : Nat) (self : string), self.size < fuel → self.size < SIZE_MOD →
      ∃ d1, d1 <+: self.data ∧
        ((string.trim_back str fuel self = .returns () ⟨d1, self.tokens⟩ ∧
            ¬ str <:+ d1 ∧ str.length ≤ d1.length) ∨
          (string.trim_back str fuel self
              = .throws (.out_of_range "basic_string::compare") ⟨d1, self.tokens⟩ ∧
            d1.length < str.length)) := by
  have hlen : 0 < str.length := List.length_pos.mpr hstr
  intro fuel
  induction fuel with
  | zero => intro self h; omega
  | succ fuel ih =>
    intro self hfuel hself
    by_cases hshort : self.size < str.length
    · exact ⟨self.data, List.prefix_refl _,
        Or.inr ⟨trim_back_throw str fuel self hsl hshort, hshort⟩⟩
    · have hle : str.length ≤ self.size := by omega
      by_cases hsuf : str <:+ self.data
      · have hsz : self.size = self.data.length := rfl
        have herase : std.string.erase self.data (self.size - str.length) npos
            = .ok (self.data.take (self.size - str.length)) := by
          rw [erase_of_le _ _ _ (by omega)]
          have : List.drop npos (List.drop (self.size - str.length) self.data) = [] := by
            apply List.drop_eq_nil_of_le
            simp only [string.size, List.length_drop, npos, SIZE_MOD] at *
            omega
          rw [this, List.append_nil]
        obtain ⟨d1, hpre, hcase⟩ := ih ⟨self.data.take (self.size - str.length), self.tokens⟩
          (by simp only [string.size, List.length_take]; omega)
          (by simp only [string.size, List.length_take] at *; omega)
        have hstep : string.trim_back str (fuel + 1) self
            = string.trim_back str fuel
                ⟨self.data.take (self.size - str.length), self.tokens⟩ := by
          conv_lhs => unfold string.trim_back
          simp only
          rw [trim_back_compare str self hself hle]
          simp only [hsuf, decide_True]
          rw [size_sub_of_le _ _ hself hle, herase]
        refine ⟨d1, hpre.trans (List.take_prefix _ _), ?_⟩
        rw [hstep]
        exact hcase
      · exact ⟨self.data, List.prefix_refl _,
          Or.inl ⟨trim_back_fix str fuel self hself hle hsuf, hsuf, hle⟩⟩

/-- A text that `trim` has nothing to do on is returned as it is. -/
theorem trim_fixed (str : List Char) (self : string) (hself : self.size < SIZE_MOD)
    (hnp : ¬ str <+: self.data) (hnd : ¬ (str ++ str) <:+: self.data)
    (hns : ¬ str <:+ self.data) (hle : str.length ≤ self.size) :
    self.trim str = .returns self self := by
  unfold string.trim
  rw [trim_front_fix str _ self hnp]
  simp only [Outcome.bind]
  rw [trim_middle_fix str _ self hnd]
  simp only
  rw [trim_back_fix str _ self hself hle hns]

/-- On a text shorter than `str` the third loop of `trim` is reached with the
text untouched and throws. -/
theorem trim_short (str : List Char) (self : string) (hsl : str.length < SIZE_MOD)
    (h : self.size < str.length) :
    self.trim str = .throws (.out_of_range "basic_string::compare") self := by
  have hlen : self.data.length < str.length := h
  have hnp : ¬ str <+: self.data := fun hp => by have := hp.length_le; omega
  have hnd : ¬ (str ++ str) <:+: self.data := fun hp => by
    have := hp.length_le
    simp only [List.length_append] at this
    omega
  unfold string.trim
  rw [trim_front_fix str _ self hnp]
  simp only [Outcome.bind]
  rw [trim_middle_fix str _ self hnd]
  simp only
  rw [trim_back_throw str _ self hsl h]

/-- What `trim(str)` does for a non-empty `str`: it ends, either returning the
value with a text that neither begins nor ends with `str` and has no doubled
`str`, or with the exception of `compare` on a text shorter than `str`. -/
theorem trim_spec (self : string) (str : List Char) (hstr : str ≠ [])
    (hsl : str.length < SIZE_MOD) (hself : self.size < SIZE_MOD) :
    ∃ d1, d1.length ≤ self.size ∧
      ((self.trim str = .returns ⟨d1, self.tokens⟩ ⟨d1, self.tokens⟩ ∧
          ¬ str <+: d1 ∧ ¬ (str ++ str) <:+: d1 ∧ ¬ str <:+ d1 ∧ str.length ≤ d1.length) ∨
        (self.trim str = .throws (.out_of_range "basic_string::compare") ⟨d1, self.tokens⟩ ∧
          d1.length < str.length)) := by
  obtain ⟨a, ha, hap, hal⟩ := trim_front_spec str hstr (self.size + 1) self (by omega)
  obtain ⟨b, hb, hbp, hbd, hbl⟩ := trim_middle_spec str hstr (a.length + 1) ⟨a, self.tokens⟩
    (by simp [string.size]) hap
  have hbl' : b.length ≤ a.length := hbl
  obtain ⟨c, hcp, hc⟩ := trim_back_spec str hstr hsl (b.length + 1) ⟨b, self.tokens⟩
    (by simp [string.size]) (by simp only [string.size] at *; omega)
  have hcl : c.length ≤ b.length := hcp.length_le
  have hcd : ¬ (str ++ str) <:+: c := fun h => hbd (h.trans hcp.isInfix)
  have hcpre : ¬ str <+: c := fun h => hbp (h.trans hcp)
  refine ⟨c, by omega, ?_⟩
  unfold string.trim
  rw [ha]
  simp only [Outcome.bind, string.size]
  rw [hb]
  simp only
  rcases hc with ⟨h1, h2, h3⟩ | ⟨h1, h2⟩
  · left
    rw [h1]
    exact ⟨rfl, hcpre, hcd, h2, h3⟩
  · right
    rw [h1]
    exact ⟨rfl, h2⟩

/-- C5, the code at the failing input: `trim(" ")` on `" hello      w or ld!   "`
returns with the content `"hello w or ld!"`, the leading and the trailing space
removed, and not with `" hello w or ld! "` as the example in the header says. -/
theorem trim_doc_example :
    (lit " hello      w or ld!   ").trim [' ']
      = .returns (lit "hello w or ld!") (lit "hello w or ld!") ∧
    ((lit " hello      w or ld!   ").trim [' ']).post ≠ some (lit " hello w or ld! ") := by
  decide

/-- C6: for a non-empty pattern `str`, whenever `trim(str)` returns, the resulting
content does not begin with `str`, does not end with `str` and contains no
occurrence of `str` immediately followed by `str`; the returned reference is
the receiver, whose token cache is untouched. -/
theorem trim_postcondition (self : string) (str : List Char) (v s1 : string)
    (hstr : str ≠ []) (hsl : str.length < SIZE_MOD) (hself : self.size < SIZE_MOD)
    (h : self.trim str = .returns v s1) :
    v = s1 ∧ s1.tokens = self.tokens ∧
    ¬ str <+: s1.data ∧ ¬ str <:+ s1.data ∧ ¬ (str ++ str) <:+: s1.data := by
  obtain ⟨d1, -, ⟨h1, h2, h3, h4, -⟩ | ⟨h1, -⟩⟩ := trim_spec self str hstr hsl hself
  · rw [h1] at h
    simp only [Outcome.returns.injEq] at h
    obtain ⟨hv, hs⟩ := h
    subst hv
    subst hs
    exact ⟨rfl, rfl, h2, h4, h3⟩
  · rw [h1] at h
    cases h

theorem trim_postcondition_witness :
    ([' '] : List Char) ≠ [] ∧ ([' '] : List Char).length < SIZE_MOD ∧
    (lit "  a   b  ").size < SIZE_MOD ∧
    (lit "  a   b  ").trim [' '] = .returns (lit "a b") (lit "a b") ∧
    (lit "a b") = (lit "a b") ∧ (lit "a b").tokens = (lit "  a   b  ").tokens ∧
    ¬ [' '] <+: (lit "a b").data ∧ ¬ [' '] <:+ (lit "a b").data ∧
    ¬ ([' '] ++ [' ']) <:+: (lit "a b").data :=
  ⟨by decide, by decide, by decide, by decide,
    trim_postcondition (lit "  a   b  ") [' '] (lit "a b") (lit "a b") (by decide) (by decide)
      (by decide) (by decide)⟩

/-- C7: for a non-empty pattern `str`, `trim(str)` ends, and applying `trim(str)`
again to the value the first application left gives the same outcome and
leaves the same value: the content after two applications is the content after
one. -/
theorem trim_idempotent (self : string) (str : List Char) (hstr : str ≠ [])
    (hsl : str.length < SIZE_MOD) (hself : self.size < SIZE_MOD) :
    ∃ s1, (self.trim str).post = some s1 ∧ s1.trim str = self.trim str ∧
      (s1.trim str).post = some s1 := by
  obtain ⟨d1, hd1, ⟨h1, h2, h3, h4, h5⟩ | ⟨h1, h2⟩⟩ := trim_spec self str hstr hsl hself
  · have hfix := trim_fixed str ⟨d1, self.tokens⟩ (by simp only [string.size] at *; omega)
      h2 h3 h4 h5
    refine ⟨⟨d1, self.tokens⟩, by rw [h1]; rfl, by rw [h1, hfix], by rw [hfix]; rfl⟩
  · have hfix := trim_short str ⟨d1, self.tokens⟩ hsl h2
    refine ⟨⟨d1, self.tokens⟩, by rw [h1]; rfl, by rw [h1, hfix], by rw [hfix]; rfl⟩

theorem trim_idempotent_witness :
    ([' '] : List Char) ≠ [] ∧ ([' '] : List Char).length < SIZE_MOD ∧
    (lit "  a   b  ").size < SIZE_MOD ∧
    ∃ s1, ((lit "  a   b  ").trim [' ']).post = some s1 ∧
      s1.trim [' '] = (lit "  a   b  ").trim [' '] ∧ (s1.trim [' ']).post = some s1 :=
  ⟨by decide, by decide, by decide,
    trim_idempotent (lit "  a   b  ") [' '] (by decide) (by decide) (by decide)⟩

/-- C8, the code at the failing inputs: on the empty content, on a content
shorter than the pattern and on a content made up only of repetitions of the
pattern, `trim` does not return: `size() - str.size()` wraps around and
`compare` throws `std::out_of_range`. -/
theorem trim_throws_out_of_range :
    (lit "").trim [' '] = .throws (.out_of_range "basic_string::compare") (lit "") ∧
    (lit "a").trim ['a', 'b'] = .throws (.out_of_range "basic_string::compare") (lit "a") ∧
    (lit "   ").trim [' '] = .throws (.out_of_range "basic_string::compare") (lit "") := by
  decide

/-! ## Trimming a character set -/

/-- C9, the code at the failing input: `trim_all_of(" ;")` on
`"hello ; ;; ; world ;"` leaves `"hello ; ; ; world "`, with the space before
the final semicolon still there, and not `"hello ; ; ; world"`. -/
theorem trim_all_of_doc_example :
    (lit "hello ; ;; ; world ;").trim_all_of [' ', ';']
      = .returns (lit "hello ; ; ; world ") (lit "hello ; ; ; world ") ∧
    ((lit "hello ; ;; ; world ;").trim_all_of [' ', ';']).post
      ≠ some (lit "hello ; ; ; world") := by
  decide

theorem has_char_eq_in_set (any : List Char) (c : Char) :
    string.has_char any c = in_set any c := by
  rw [Bool.eq_iff_iff, has_char_iff]
  simp [in_set]

theorem modifyHead_nil_append (l : List (List Char)) :
    l.modifyHead (fun x => ([] : List Char).reverse ++ x) = l := by
  cases l <;> simp

theorem modifyHead_self (l : List (List Char)) : l.modifyHead (fun x => x) = l := by
  cases l <;> simp

theorem splitBy_loop_acc (r : Char → Char → Bool) :
    ∀ (l : List Char) (a : Char) (g : List Char) (gs : List (List Char)),
      List.splitBy.loop r l a g gs
        = gs.reverse ++ (List.splitBy.loop r l a [] []).modifyHead (g.reverse ++ ·) := by
  intro l
  induction l with
  | nil => intro a g gs; simp [List.splitBy.loop]
  | cons b l ih =>
    intro a g gs
    rw [List.splitBy.loop, List.splitBy.loop]
    cases r a b with
    | true =>
      simp only
      rw [ih b (a :: g) gs, ih b [a] []]
      simp [List.modifyHead_modifyHead, Function.comp_def]
    | false =>
      simp only
      rw [ih b [] (_ :: gs), ih b [] [[a].reverse], modifyHead_nil_append]
      cases List.splitBy.loop r l b [] [] <;> simp

theorem splitBy_cons_cons (r : Char → Char → Bool) (a b : Char) (l : List Char) :
    (a :: b :: l).splitBy r =
      if r a b then ((b :: l).splitBy r).modifyHead (List.cons a)
      else [a] :: (b :: l).splitBy r := by
  rw [List.splitBy, List.splitBy.loop]
  cases r a b with
  | true =>
    simp only [if_true]
    rw [splitBy_loop_acc, List.splitBy]
    simp
  | false =>
    simp only
    rw [splitBy_loop_acc, List.splitBy]
    simp [modifyHead_self]

theorem run_all_in_set (any : List Char) :
    ∀ (g : List Char) (x : Char), in_set any x = true →
      List.Chain' (fun a b => (in_set any a && in_set any b) = true) (x :: g) →
      (x :: g).all (in_set any) = true := by
  intro g
  induction g with
  | nil => intro x hx _; simp [hx]
  | cons y g ih =>
    intro x hx hch
    rw [List.chain'_cons] at hch
    have hy : in_set any y = true := by
      have := hch.1
      simp only [Bool.and_eq_true] at this
      exact this.2
    have := ih y hy hch.2
    rw [List.all_cons, hx, this]
    rfl

theorem collapse_runs_nil (any : List Char) : collapse_runs any [] = [] := by
  simp [collapse_runs]

theorem collapse_runs_singleton (any : List Char) (c : Char) : collapse_runs any [c] = [c] := by
  simp [collapse_runs, List.splitBy, List.splitBy.loop]

theorem collapse_runs_cons_cons (any : List Char) (c n : Char) (r : List Char) :
    collapse_runs any (c :: n :: r) =
      if (in_set any c && in_set any n) = true then collapse_runs any (n :: r)
      else c :: collapse_runs any (n :: r) := by
  unfold collapse_runs
  rw [splitBy_cons_cons]
  cases hs : (n :: r).splitBy (fun a b => in_set any a && in_set any b) with
  | nil =>
    have := List.flatten_splitBy (fun a b => in_set any a && in_set any b) (n :: r)
    rw [hs] at this
    simp at this
  | cons g gs =>
    have hmem : g ∈ (n :: r).splitBy (fun a b => in_set any a && in_set any b) := by
      rw [hs]; exact List.mem_cons_self _ _
    have hne : g ≠ [] := List.ne_nil_of_mem_splitBy _ hmem
    have hflat := List.flatten_splitBy (fun a b => in_set any a && in_set any b) (n :: r)
    rw [hs] at hflat
    cases g with
    | nil => exact absurd rfl hne
    | cons x g' =>
      have hx : x = n := by
        simp only [List.flatten_cons, List.cons_append, List.cons.injEq] at hflat
        exact hflat.1
      subst hx
      by_cases hcn : (in_set any c && in_set any x) = true
      · rw [if_pos hcn, if_pos hcn]
        have hc : in_set any c = true := by
          simp only [Bool.and_eq_true] at hcn
          exact hcn.1
        have hxs : in_set any x = true := by
          simp only [Bool.and_eq_true] at hcn
          exact hcn.2
        have hall : (x :: g').all (in_set any) = true :=
          run_all_in_set any g' x hxs (List.chain'_of_mem_splitBy hmem)
        have hall2 : (c :: x :: g').all (in_set any) = true := by
          rw [List.all_cons, hc, hall]
          rfl
        simp only [List.modifyHead_cons, List.map_cons, hall, hall2, if_true,
          List.getLast?_cons_cons]
      · rw [if_neg hcn, if_neg hcn]
        simp only [List.map_cons, List.flatten_cons]
        have : (if [c].all (in_set any) = true then [c].getLast?.toList else [c]) = [c] := by
          split <;> simp
        rw [this]
        rfl

theorem rdropWhile_cons (p : Char → Bool) (c : Char) (l : List Char) :
    List.rdropWhile p (c :: l) =
      if List.rdropWhile p l = [] ∧ p c = true then [] else c :: List.rdropWhile p l := by
  induction l using List.reverseRecOn generalizing c with
  | nil =>
    rw [List.rdropWhile_nil, show [c] = [] ++ [c] by rfl, List.rdropWhile_concat]
    by_cases h : p c = true <;> simp [h]
  | append_singleton l x ih =>
    rw [← List.cons_append, List.rdropWhile_concat, List.rdropWhile_concat]
    by_cases hx : p x = true
    · rw [if_pos hx, if_pos hx]
      exact ih c
    · rw [if_neg hx, if_neg hx, if_neg (by simp)]
      rfl

theorem trim_any_of_loop_cons (any : List Char) (front : Bool) (c : Char) (rest : List Char) :
    string.trim_any_of_loop any front (c :: rest) =
      if (in_set any c && (front || rest.isEmpty || (rest.head?.map (in_set any)).getD false))
          = true then
        string.trim_any_of_loop any front rest
      else c :: string.trim_any_of_loop any false rest := by
  rw [string.trim_any_of_loop]
  have : string.has_char any = in_set any := funext (has_char_eq_in_set any)
  rw [this]

theorem trim_any_of_loop_kept (any : List Char) (front : Bool) (c : Char) (rest : List Char)
    (h : in_set any c = false) :
    string.trim_any_of_loop any front (c :: rest)
      = c :: string.trim_any_of_loop any false rest := by
  rw [trim_any_of_loop_cons, if_neg (by simp [h])]

/-- With `front` set the loop of `trim_any_of` erases the leading characters of
the set and goes on with `front` cleared. -/
theorem trim_any_of_loop_front (any : List Char) :
    ∀ l : List Char, string.trim_any_of_loop any true l
      = string.trim_any_of_loop any false (l.dropWhile (in_set any)) := by
  intro l
  induction l with
  | nil => rfl
  | cons c rest ih =>
    by_cases hc : in_set any c = true
    · rw [trim_any_of_loop_cons, if_pos (by simp [hc]), ih, List.dropWhile_cons_of_pos hc]
    · rw [Bool.not_eq_true] at hc
      rw [trim_any_of_loop_kept _ _ _ _ hc, List.dropWhile_cons_of_neg (by simp [hc]),
        trim_any_of_loop_kept _ _ _ _ hc]

/-- With `front` cleared the loop of `trim_any_of` erases the trailing characters
of the set and collapses every other run of them to its last character. -/
theorem trim_any_of_loop_collapse (any : List Char) :
    ∀ l : List Char, string.trim_any_of_loop any false l
      = collapse_runs any (l.rdropWhile (in_set any)) := by
  intro l
  induction l with
  | nil => simp [string.trim_any_of_loop, collapse_runs_nil]
  | cons c rest ih =>
    by_cases hnil : List.rdropWhile (in_set any) rest = []
    · rw [hnil, collapse_runs_nil] at ih
      have hall : ∀ x ∈ rest, in_set any x = true := List.rdropWhile_eq_nil_iff.mp hnil
      by_cases hc : in_set any c = true
      · have hr : List.rdropWhile (in_set any) (c :: rest) = [] := by
          rw [rdropWhile_cons, if_pos ⟨hnil, hc⟩]
        have hcond : (in_set any c && (false || rest.isEmpty
            || (rest.head?.map (in_set any)).getD false)) = true := by
          cases rest with
          | nil => simp [hc]
          | cons x r => simp [hc, hall x (List.mem_cons_self _ _)]
        rw [hr, collapse_runs_nil, trim_any_of_loop_cons, if_pos hcond, ih]
      · have hr : List.rdropWhile (in_set any) (c :: rest) = [c] := by
          rw [rdropWhile_cons, if_neg (fun h => hc h.2), hnil]
        rw [hr, collapse_runs_singleton, trim_any_of_loop_kept _ _ _ _ (by simpa using hc), ih]
    · cases rest with
      | nil => exact absurd (List.rdropWhile_nil _) hnil
      | cons x r =>
        have hx : List.rdropWhile (in_set any) (x :: r)
            = x :: List.rdropWhile (in_set any) r := by
          have h := rdropWhile_cons (in_set any) x r
          split at h
          · exact absurd h hnil
          · exact h
        have hr : List.rdropWhile (in_set any) (c :: x :: r)
            = c :: x :: List.rdropWhile (in_set any) r := by
          rw [rdropWhile_cons, if_neg (fun h => hnil h.1), hx]
        rw [hx] at ih
        rw [hr, collapse_runs_cons_cons, ← ih, trim_any_of_loop_cons]
        simp

/-- The loop of `trim_any_of` computes the specified text. -/
theorem trim_any_of_loop_spec (any l : List Char) :
    string.trim_any_of_loop any true l = trim_any_of_spec any l := by
  rw [trim_any_of_loop_front, trim_any_of_loop_collapse, trim_any_of_spec]

theorem trim_any_of_loop_head (any l : List Char) :
    ∀ c ∈ (string.trim_any_of_loop any true l).head?, in_set any c = false := by
  intro c hc
  rw [trim_any_of_loop_front] at hc
  cases hd : l.dropWhile (in_set any) with
  | nil => rw [hd] at hc; simp [string.trim_any_of_loop] at hc
  | cons x r =>
    have hx : in_set any x = false := by
      have := List.head?_dropWhile_not (in_set any) l
      rw [hd] at this
      simpa using this
    rw [hd, trim_any_of_loop_kept _ _ _ _ hx] at hc
    simp only [List.head?_cons, Option.mem_def, Option.some.injEq] at hc
    rw [← hc]
    exact hx

/-- A character of the set that the loop keeps is followed by a kept character
outside the set. -/
theorem trim_any_of_loop_after_kept (any : List Char) (front : Bool) (c : Char)
    (rest : List Char) (hc : in_set any c = true)
    (hkeep : ¬ (in_set any c && (front || rest.isEmpty
      || (rest.head?.map (in_set any)).getD false)) = true) :
    ∃ x r, rest = x :: r ∧ in_set any x = false ∧
      string.trim_any_of_loop any false rest = x :: string.trim_any_of_loop any false r := by
  cases rest with
  | nil => simp [hc] at hkeep
  | cons x r =>
    have hx : in_set any x = false := by
      simp [hc] at hkeep
      exact hkeep.2
    exact ⟨x, r, rfl, hx, trim_any_of_loop_kept _ _ _ _ hx⟩

theorem trim_any_of_loop_last (any : List Char) :
    ∀ (l : List Char) (front : Bool),
      ∀ c ∈ (string.trim_any_of_loop any front l).getLast?, in_set any c = false := by
  intro l
  induction l with
  | nil => intro front c hc; simp [string.trim_any_of_loop] at hc
  | cons c0 rest ih =>
    intro front c hc
    rw [trim_any_of_loop_cons] at hc
    split at hc
    · exact ih front c hc
    · rename_i hkeep
      cases hm : string.trim_any_of_loop any false rest with
      | nil =>
        rw [hm] at hc
        simp only [List.getLast?_singleton, Option.mem_def, Option.some.injEq] at hc
        subst hc
        by_contra hp
        rw [Bool.not_eq_false] at hp
        obtain ⟨x, r, -, -, hx⟩ := trim_any_of_loop_after_kept any front c0 rest hp hkeep
        rw [hx] at hm
        cases hm
      | cons y m =>
        rw [hm, List.getLast?_cons_cons] at hc
        rw [← hm] at hc
        exact ih false c hc

theorem trim_any_of_loop_chain (any : List Char) :
    ∀ (l : List Char) (front : Bool),
      (string.trim_any_of_loop any front l).Chain'
        (fun a b => ¬ (in_set any a = true ∧ in_set any b = true)) := by
  intro l
  induction l with
  | nil => intro front; simp [string.trim_any_of_loop]
  | cons c0 rest ih =>
    intro front
    rw [trim_any_of_loop_cons]
    split
    · exact ih front
    · rename_i hkeep
      rw [List.chain'_cons']
      refine ⟨?_, ih false⟩
      intro y hy hboth
      obtain ⟨x, r, -, hx, hl⟩ := trim_any_of_loop_after_kept any front c0 rest hboth.1 hkeep
      rw [hl] at hy
      simp only [List.head?_cons, Option.mem_def, Option.some.injEq] at hy
      subst hy
      rw [hx] at hboth
      exact absurd hboth.2 (by simp)

theorem trim_any_of_loop_filter (any : List Char) :
    ∀ (l : List Char) (front : Bool),
      (string.trim_any_of_loop any front l).filter (fun c => !in_set any c)
        = l.filter (fun c => !in_set any c) := by
  intro l
  induction l with
  | nil => intro front; simp [string.trim_any_of_loop]
  | cons c0 rest ih =>
    intro front
    rw [trim_any_of_loop_cons]
    split
    · rename_i h
      have hc : in_set any c0 = true := by
        simp only [Bool.and_eq_true] at h
        exact h.1
      rw [ih front, List.filter_cons_of_neg (by simp [hc])]
    · rw [List.filter_cons, List.filter_cons, ih false]

/-- A text that neither begins nor ends with a character of the set and has no
two adjacent characters of the set is left as it is. -/
theorem trim_any_of_loop_fixed (any : List Char) :
    ∀ (l : List Char) (front : Bool),
      (front = true → ∀ c ∈ l.head?, in_set any c = false) →
      (∀ c ∈ l.getLast?, in_set any c = false) →
      l.Chain' (fun a b => ¬ (in_set any a = true ∧ in_set any b = true)) →
      string.trim_any_of_loop any front l = l := by
  intro l
  induction l with
  | nil => intro front _ _ _; rfl
  | cons c0 rest ih =>
    intro front hhead hlast hchain
    rw [List.chain'_cons'] at hchain
    have hrest : string.trim_any_of_loop any false rest = rest := by
      apply ih false (fun h => by cases h) _ hchain.2
      intro c hc
      cases rest with
      | nil => simp at hc
      | cons x r =>
        apply hlast
        rw [List.getLast?_cons_cons]
        exact hc
    rw [trim_any_of_loop_cons, if_neg, hrest]
    intro herase
    simp only [Bool.and_eq_true, Bool.or_eq_true] at herase
    obtain ⟨hc0, hcases⟩ := herase
    rcases hcases with (hf | he) | hn
    · have := hhead hf c0 (by simp)
      rw [hc0] at this
      cases this
    · cases rest with
      | nil =>
        have := hlast c0 (by simp)
        rw [hc0] at this
        cases this
      | cons x r => simp at he
    · cases rest with
      | nil => simp at hn
      | cons x r =>
        simp only [List.head?_cons, Option.map_some', Option.getD_some] at hn
        exact hchain.1 x (by simp) ⟨hc0, hn⟩

theorem in_set_eq_false_iff (any : List Char) (c : Char) : in_set any c = false ↔ c ∉ any := by
  simp [in_set]

/-- C10: `trim_any_of(charset)` leaves exactly the content obtained by deleting
every leading character of the set, deleting every trailing character of the
set and replacing each remaining maximal run of consecutive characters of the
set by its last character.  Hence the result neither begins nor ends with a
character of the set, has no two adjacent characters of the set, keeps every
character outside the set in order, and `trim_any_of` is idempotent.  On
`"hello ; ;; ; world ;"` with `" ;"` the result is `"hello world"`. -/
theorem trim_any_of_collapses (self : string) (any : List Char) :
    ∃ r : string, self.trim_any_of any = .returns r r ∧ r.tokens = self.tokens ∧
      r.data = trim_any_of_spec any self.data ∧
      (∀ c ∈ r.data.head?, c ∉ any) ∧ (∀ c ∈ r.data.getLast?, c ∉ any) ∧
      r.data.Chain' (fun a b => ¬ (a ∈ any ∧ b ∈ any)) ∧
      r.data.filter (fun c => decide (c ∉ any)) = self.data.filter (fun c => decide (c ∉ any)) ∧
      r.trim_any_of any = .returns r r ∧
      (lit "hello ; ;; ; world ;").trim_any_of [' ', ';']
        = .returns (lit "hello world") (lit "hello world") := by
  have hhead := trim_any_of_loop_head any self.data
  have hlast := trim_any_of_loop_last any self.data true
  have hchain := trim_any_of_loop_chain any self.data true
  refine ⟨⟨string.trim_any_of_loop any true self.data, self.tokens⟩, rfl, rfl,
    trim_any_of_loop_spec any self.data,
    fun c hc => (in_set_eq_false_iff any c).mp (hhead c hc),
    fun c hc => (in_set_eq_false_iff any c).mp (hlast c hc), ?_, ?_, ?_, by decide⟩
  · refine List.Chain'.imp ?_ hchain
    intro a b hab
    simpa [in_set] using hab
  · have := trim_any_of_loop_filter any self.data true
    simpa [in_set] using this
  · unfold string.trim_any_of
    simp only
    rw [trim_any_of_loop_fixed any _ true (fun _ => hhead) hlast hchain]

theorem trim_any_of_collapses_witness :
    ∃ r : string, (lit " ;a ;b; ").trim_any_of [' ', ';'] = .returns r r ∧
      r.data = trim_any_of_spec [' ', ';'] (lit " ;a ;b; ").data ∧
      trim_any_of_spec [' ', ';'] (lit " ;a ;b; ").data = "a;b".toList :=
  (trim_any_of_collapses (lit " ;a ;b; ") [' ', ';']).imp
    fun _ h => ⟨h.1, h.2.2.1, by decide⟩

/-! ## Termination of the tokenizers -/

/-- The two ways one iteration of the loop of `tokenize` can go, entered at
`i < size` with `last <= i`: after the quote jump to `j`, either `j` is a
boundary, a pair of valid offsets is cached and `i` and `last` move to `j`
plus the length of the delimiter, or `j` is not a boundary, `j + 1` is still
inside the text and only `i` moves, to `j + 1`. -/
theorem tokenize_body_cases (d q txt : List Char) (acc : List (Nat × Nat)) (i last : Nat)
    (hi : i < txt.length) (hl : last ≤ i) :
    ∃ j span, i ≤ j ∧ j < txt.length ∧ span.1 < txt.length ∧ span.2 < txt.length ∧
      (string.tokenize_body d q txt.length i last ⟨txt, acc⟩
          = .ok (j + d.length, j + d.length, ⟨txt, acc ++ [span]⟩) ∨
        (j + 1 < txt.length ∧
          string.tokenize_body d q txt.length i last ⟨txt, acc⟩ = .ok (j + 1, last, ⟨txt, acc⟩))) := by
  unfold string.tokenize_body
  rw [charAt_of_lt _ _ hi]
  simp only
  obtain ⟨hj1, hj2⟩ := quote_jump_bounds ⟨txt, acc⟩ q (txt[i]) i hi
  generalize string.quote_jump ⟨txt, acc⟩ q (txt[i]) i = j at hj1 hj2
  have hj2' : j < txt.length := hj2
  obtain ⟨p, hp, hp1, hp2⟩ := token_span_bounds ⟨txt, acc⟩ q j last hj2 (by omega)
  have hp' : string.token_span ⟨txt, acc⟩ q txt.length j last = .ok p := hp
  refine ⟨j, p, hj1, hj2', hp1, hp2, ?_⟩
  by_cases hlast : j + 1 = txt.length
  · left
    rw [if_pos hlast]
    simp only [hp']
  · rw [if_neg hlast, compare_eq_zero_of_le _ _ _ _ (by omega)]
    cases decide (List.take d.length (List.drop j txt) = d) with
    | true => left; simp only [hp']
    | false => right; exact ⟨by omega, rfl⟩

/-- The two ways one iteration of the loop of `tokenize_any` can go. -/
theorem tokenize_any_body_cases (ds q txt : List Char) (acc : List (Nat × Nat)) (i last : Nat)
    (hi : i < txt.length) (hl : last ≤ i) :
    ∃ j span, i ≤ j ∧ j < txt.length ∧ span.1 < txt.length ∧ span.2 < txt.length ∧
      (string.tokenize_any_body ds q txt.length i last ⟨txt, acc⟩
          = .ok (j + 1, j + 1, ⟨txt, acc ++ [span]⟩) ∨
        (j + 1 < txt.length ∧
          string.tokenize_any_body ds q txt.length i last ⟨txt, acc⟩
            = .ok (j + 1, last, ⟨txt, acc⟩))) := by
  unfold string.tokenize_any_body
  rw [charAt_of_lt _ _ hi]
  simp only
  obtain ⟨hj1, hj2⟩ := quote_jump_bounds ⟨txt, acc⟩ q (txt[i]) i hi
  generalize string.quote_jump ⟨txt, acc⟩ q (txt[i]) i = j at hj1 hj2
  have hj2' : j < txt.length := hj2
  obtain ⟨p, hp, hp1, hp2⟩ := token_span_bounds ⟨txt, acc⟩ q j last hj2 (by omega)
  have hp' : string.token_span ⟨txt, acc⟩ q txt.length j last = .ok p := hp
  refine ⟨j, p, hj1, hj2', hp1, hp2, ?_⟩
  by_cases hb : j + 1 = txt.length ∨ string.has_char ds (txt[i]) = true
  · left
    rw [if_pos hb]
    simp only [hp']
  · right
    rw [if_neg hb]
    exact ⟨by omega, rfl⟩

/-- With a non-empty delimiter the loop of `tokenize` exits when it has fuel for
the characters still to scan; it caches only valid offsets, and at least one
pair when it is entered inside the text. -/
theorem tokenize_loop_returns (d q txt : List Char) (hd : d ≠ []) :
    ∀ (fuel i last : Nat) (acc : List (Nat × Nat)), last ≤ i → txt.length - i < fuel →
      ∃ toks, string.tokenize_loop d q txt.length fuel i last ⟨txt, acc⟩
          = .returns () ⟨txt, acc ++ toks⟩ ∧
        (∀ p ∈ toks, p.1 < txt.length ∧ p.2 < txt.length) ∧ (i < txt.length → toks ≠ []) := by
  have hdl : 0 < d.length := List.length_pos.mpr hd
  intro fuel
  induction fuel with
  | zero => intro i last acc _ h; omega
  | succ fuel ih =>
    intro i last acc hl hfuel
    unfold string.tokenize_loop
    by_cases hi : i < txt.length
    · rw [if_pos hi]
      obtain ⟨j, span, hj1, hj2, hs1, hs2, hb | ⟨hj3, hb⟩⟩ :=
        tokenize_body_cases d q txt acc i last hi hl
      · rw [hb]
        simp only
        obtain ⟨toks, h1, h2, -⟩ := ih (j + d.length) (j + d.length) (acc ++ [span])
          (le_refl _) (by omega)
        refine ⟨span :: toks, by rw [h1]; simp, ?_, fun _ => by simp⟩
        intro p hp
        rcases List.mem_cons.mp hp with h | h
        · subst h; exact ⟨hs1, hs2⟩
        · exact h2 p h
      · rw [hb]
        simp only
        obtain ⟨toks, h1, h2, h3⟩ := ih (j + 1) last acc (by omega) (by omega)
        exact ⟨toks, h1, h2, fun _ => h3 hj3⟩
    · rw [if_neg hi]
      exact ⟨[], by simp, by simp, fun h => absurd h hi⟩

/-- The loop of `tokenize_any` exits when it has fuel for the characters still to
scan; it caches only valid offsets, and at least one pair when it is entered
inside the text. -/
theorem tokenize_any_loop_returns (ds q txt : List Char) :
    ∀ (fuel i last : Nat) (acc : List (Nat × Nat)), last ≤ i → txt.length - i < fuel →
      ∃ toks, string.tokenize_any_loop ds q txt.length fuel i last ⟨txt, acc⟩
          = .returns () ⟨txt, acc ++ toks⟩ ∧
        (∀ p ∈ toks, p.1 < txt.length ∧ p.2 < txt.length) ∧ (i < txt.length → toks ≠ []) := by
  intro fuel
  induction fuel with
  | zero => intro i last acc _ h; omega
  | succ fuel ih =>
    intro i last acc hl hfuel
    unfold string.tokenize_any_loop
    by_cases hi : i < txt.length
    · rw [if_pos hi]
      obtain ⟨j, span, hj1, hj2, hs1, hs2, hb | ⟨hj3, hb⟩⟩ :=
        tokenize_any_body_cases ds q txt acc i last hi hl
      · rw [hb]
        simp only
        obtain ⟨toks, h1, h2, -⟩ := ih (j + 1) (j + 1) (acc ++ [span])
          (le_refl _) (by omega)
        refine ⟨span :: toks, by rw [h1]; simp, ?_, fun _ => by simp⟩
        intro p hp
        rcases List.mem_cons.mp hp with h | h
        · subst h; exact ⟨hs1, hs2⟩
        · exact h2 p h
      · rw [hb]
        simp only
        obtain ⟨toks, h1, h2, h3⟩ := ih (j + 1) last acc (by omega) (by omega)
        exact ⟨toks, h1, h2, fun _ => h3 hj3⟩
    · rw [if_neg hi]
      exact ⟨[], by simp, by simp, fun h => absurd h hi⟩

/-- The member `tokenize` with a non-empty delimiter returns: the count is the
number of cached pairs, the text is kept, the pairs are valid offsets and
there is at least one when the text is not empty. -/
theorem tokenize_returns (self : string) (d q : List Char) (hd : d ≠ []) :
    ∃ toks, self.tokenize d q = .returns toks.length ⟨self.data, toks⟩ ∧
      (∀ p ∈ toks, p.1 < self.size ∧ p.2 < self.size) ∧ (self.data ≠ [] → toks ≠ []) := by
  obtain ⟨toks, h1, h2, h3⟩ := tokenize_loop_returns d q self.data hd (self.data.length + 1)
    0 0 [] (le_refl _) (by omega)
  refine ⟨toks, ?_, h2, fun h => h3 (List.length_pos.mpr h)⟩
  unfold string.tokenize
  simp only [string.size]
  rw [h1]
  simp [Outcome.bind]

/-- The member `tokenize_any` returns: the count is the number of cached pairs,
the text is kept, the pairs are valid offsets and there is at least one when
the text is not empty. -/
theorem tokenize_any_returns (self : string) (ds q : List Char) :
    ∃ toks, self.tokenize_any ds q = .returns toks.length ⟨self.data, toks⟩ ∧
      (∀ p ∈ toks, p.1 < self.size ∧ p.2 < self.size) ∧ (self.data ≠ [] → toks ≠ []) := by
  obtain ⟨toks, h1, h2, h3⟩ := tokenize_any_loop_returns ds q self.data (self.data.length + 1)
    0 0 [] (le_refl _) (by omega)
  refine ⟨toks, ?_, h2, fun h => h3 (List.length_pos.mpr h)⟩
  unfold string.tokenize_any
  simp only [string.size]
  rw [h1]
  simp [Outcome.bind]

/-! ## `tokenize_any` against `tokenize` -/

theorem tokenize_any_body_nil (ds txt : List Char) (acc : List (Nat × Nat)) (i last : Nat)
    (hi : i < txt.length) :
    string.tokenize_any_body ds [] txt.length i last ⟨txt, acc⟩ =
      if i + 1 = txt.length ∨ txt[i] ∈ ds then
        .ok (i + 1, i + 1,
          ⟨txt, acc ++ [(last, if i > 0 ∧ i + 1 < txt.length then i - 1 else i)]⟩)
      else .ok (i + 1, last, ⟨txt, acc⟩) := by
  unfold string.tokenize_any_body
  rw [charAt_of_lt _ _ hi]
  simp only [quote_jump_nil, token_span_nil txt acc i last hi, has_char_iff]

theorem replace_set_length (ds : List Char) (d : Char) (txt : List Char) :
    (replace_set ds d txt).length = txt.length := by
  simp [replace_set]

theorem replace_set_match (ds : List Char) (d : Char) (txt : List Char) (i : Nat)
    (hd : d ∈ ds) (hi : i < txt.length) :
    [d] <+: (replace_set ds d txt).drop i ↔ txt[i] ∈ ds := by
  unfold replace_set
  rw [← List.map_drop, List.drop_eq_getElem_cons hi, List.map_cons, List.cons_prefix_cons]
  constructor
  · rintro ⟨h, -⟩
    by_contra hn
    rw [if_neg hn] at h
    exact hn (h ▸ hd)
  · intro h
    rw [if_pos h]
    exact ⟨rfl, List.nil_prefix⟩

/-- Without quote characters the loop of `tokenize_any` on a text and the loop of
`tokenize`, with one character of the set as delimiter, on the text with the
characters of the set replaced by it, go the same way. -/
theorem tokenize_any_loop_replace (ds : List Char) (d : Char) (txt : List Char) (hd : d ∈ ds) :
    ∀ (fuel i last : Nat) (acc toks : List (Nat × Nat)),
      string.tokenize_any_loop ds [] txt.length fuel i last ⟨txt, acc⟩
          = .returns () ⟨txt, toks⟩ →
      string.tokenize_loop [d] [] (replace_set ds d txt).length fuel i last
          ⟨replace_set ds d txt, acc⟩
        = .returns () ⟨replace_set ds d txt, toks⟩ := by
  intro fuel
  induction fuel with
  | zero =>
    intro i last acc toks h
    simp [string.tokenize_any_loop] at h
  | succ fuel ih =>
    intro i last acc toks h
    have hlen := replace_set_length ds d txt
    unfold string.tokenize_any_loop at h
    unfold string.tokenize_loop
    by_cases hi : i < txt.length
    · rw [if_pos hi, tokenize_any_body_nil _ _ _ _ _ hi] at h
      rw [if_pos (by omega), tokenize_body_nil _ _ _ _ _ (by omega)]
      by_cases hb : i + 1 = txt.length ∨ txt[i] ∈ ds
      · rw [if_pos hb] at h
        rw [if_pos (by
          rcases hb with hb | hb
          · exact Or.inl (by omega)
          · exact Or.inr ((replace_set_match ds d txt i hd hi).mpr hb))]
        simp only at h ⊢
        have := ih _ _ _ _ h
        simpa [hlen] using this
      · rw [if_neg hb] at h
        rw [if_neg (by
          intro hc
          rcases hc with hc | hc
          · exact hb (Or.inl (by omega))
          · exact hb (Or.inr ((replace_set_match ds d txt i hd hi).mp hc)))]
        simp only at h ⊢
        exact ih _ _ _ _ h
    · rw [if_neg hi] at h
      rw [if_neg (by omega)]
      simp only [Outcome.returns.injEq, string.mk.injEq, true_and] at h
      simp [h]

/-- C11: without quote characters, for a character `d` of the delimiter set `D`,
`tokenize_any(D)` on a content returns the same count and caches the same
sequence of pairs as `tokenize(d)` on the content in which every character of
`D` has been replaced by `d`.  On `"this\nis a\tstring of\rarguments"` with
`"\n\r\t "` the tokens are the six tokens of `"this is a string of arguments"`
with `" "`. -/
theorem tokenize_any_as_tokenize (self : string) (ds : List Char) (d : Char) (hd : d ∈ ds) :
    (∃ toks, self.tokenize_any ds [] = .returns toks.length ⟨self.data, toks⟩ ∧
      string.tokenize ⟨replace_set ds d self.data, self.tokens⟩ [d] []
        = .returns toks.length ⟨replace_set ds d self.data, toks⟩) ∧
    (∃ v s1 s2,
      (lit "this\nis a\tstring of\rarguments").split_any ['\n', '\r', '\t', ' '] []
        = .returns v s1 ∧
      (lit "this is a string of arguments").split [' '] [] = .returns v s2 ∧
      s1.tokens = s2.tokens ∧
      v = [lit "this", lit "is", lit "a", lit "string", lit "of", lit "arguments"]) := by
  constructor
  · obtain ⟨toks, h1, -, -⟩ := tokenize_any_loop_returns ds [] self.data (self.data.length + 1)
      0 0 [] (le_refl _) (by omega)
    have h2 := tokenize_any_loop_replace ds d self.data hd _ _ _ _ _ h1
    rw [replace_set_length] at h2
    refine ⟨toks, ?_, ?_⟩
    · unfold string.tokenize_any
      simp only [string.size]
      rw [h1]
      simp [Outcome.bind]
    · unfold string.tokenize
      simp only [string.size, replace_set_length]
      rw [h2]
      simp [Outcome.bind]
  · exact ⟨_, ⟨"this\nis a\tstring of\rarguments".toList,
        [(0, 3), (5, 6), (8, 8), (10, 15), (17, 18), (20, 28)]⟩,
      ⟨"this is a string of arguments".toList,
        [(0, 3), (5, 6), (8, 8), (10, 15), (17, 18), (20, 28)]⟩,
      by decide, by decide, rfl, rfl⟩

theorem tokenize_any_as_tokenize_witness :
    ',' ∈ [';', ','] ∧
    ∃ toks, (lit "a;b,c").tokenize_any [';', ','] []
        = .returns toks.length ⟨(lit "a;b,c").data, toks⟩ ∧
      string.tokenize ⟨replace_set [';', ','] ',' (lit "a;b,c").data, (lit "a;b,c").tokens⟩
          [','] []
        = .returns toks.length ⟨replace_set [';', ','] ',' (lit "a;b,c").data, toks⟩ :=
  ⟨by decide, (tokenize_any_as_tokenize (lit "a;b,c") [';', ','] ',' (by decide)).1⟩

/-! ## Splitting -/

theorem slice_eq_slice_value (self : string) (p : Nat × Nat) (hp : p.1 ≤ self.size) :
    self.slice p.1 p.2 = .returns (slice_value self p) self := by
  have hp' : ¬ p.1 > self.data.length := by
    have : p.1 ≤ self.data.length := hp
    omega
  simp [string.slice, std.string.substr, hp', slice_value]

/-- The loop of `split` over pairs whose first position is inside the text
appends the slice of every pair, in order. -/
theorem split_collect_valid (self : string) :
    ∀ (ps : List (Nat × Nat)) (v : List string), (∀ p ∈ ps, p.1 ≤ self.size) →
      string.split_collect self ps v = .returns (v ++ ps.map (slice_value self)) self := by
  intro ps
  induction ps with
  | nil => intro v _; simp [string.split_collect]
  | cons p ps ih =>
    intro v h
    unfold string.split_collect
    rw [slice_eq_slice_value self p (h p (List.mem_cons_self _ _))]
    simp only [Outcome.bind]
    rw [ih _ (fun x hx => h x (List.mem_cons_of_mem _ hx))]
    simp

theorem get_token_of_lt (self : string) (k : Nat) (hk : k < self.tokens.length)
    (hp : (self.tokens[k]).1 ≤ self.size) :
    self.get_token k = .returns (slice_value self self.tokens[k]) self := by
  unfold string.get_token
  rw [if_neg (by omega), List.get?_eq_getElem?, List.getElem?_eq_getElem hk]
  exact slice_eq_slice_value self _ hp

/-- C12: for a non-empty delimiter, `split(delimiter, quote_chars)` returns a
sequence whose length is the count `tokenize(delimiter, quote_chars)` returns
on the same content and whose `k`-th element is `get_token(k)` after that
`tokenize`; `split_any` relates to `tokenize_any` in the same way.  On
`"this is a string of arguments"`, `split(" ")` is
`["this","is","a","string","of","arguments"]`. -/
theorem split_as_get_token (self : string) (d q : List Char) (hd : d ≠ []) :
    (∃ n s1 v, self.tokenize d q = .returns n s1 ∧ self.split d q = .returns v s1 ∧
      v.length = n ∧ ∀ (k : Nat) (hk : k < v.length), s1.get_token k = .returns v[k] s1) ∧
    (∃ n s1 v, self.tokenize_any d q = .returns n s1 ∧ self.split_any d q = .returns v s1 ∧
      v.length = n ∧ ∀ (k : Nat) (hk : k < v.length), s1.get_token k = .returns v[k] s1) ∧
    (∃ s1, (lit "this is a string of arguments").split [' '] []
      = .returns [lit "this", lit "is", lit "a", lit "string", lit "of", lit "arguments"]
          s1) := by
  have hdl : d.length ≠ 0 := fun h => hd (List.length_eq_zero.mp h)
  refine ⟨?_, ?_, ⟨⟨"this is a string of arguments".toList,
    [(0, 3), (5, 6), (8, 8), (10, 15), (17, 18), (20, 28)]⟩, by decide⟩⟩
  · obtain ⟨toks, h1, h2, -⟩ := tokenize_returns self d q hd
    have hle : ∀ p ∈ (⟨self.data, toks⟩ : string).tokens,
        p.1 ≤ (⟨self.data, toks⟩ : string).size := fun p hp => le_of_lt (h2 p hp).1
    refine ⟨_, _, toks.map (slice_value ⟨self.data, toks⟩), h1, ?_, by simp, ?_⟩
    · unfold string.split
      rw [if_pos hdl, h1]
      simp only [Outcome.bind]
      rw [split_collect_valid _ _ _ hle]
      simp
    · intro k hk
      have hk' : k < toks.length := by simpa using hk
      rw [get_token_of_lt ⟨self.data, toks⟩ k hk' (hle _ (List.getElem_mem hk'))]
      simp
  · obtain ⟨toks, h1, h2, -⟩ := tokenize_any_returns self d q
    have hle : ∀ p ∈ (⟨self.data, toks⟩ : string).tokens,
        p.1 ≤ (⟨self.data, toks⟩ : string).size := fun p hp => le_of_lt (h2 p hp).1
    refine ⟨_, _, toks.map (slice_value ⟨self.data, toks⟩), h1, ?_, by simp, ?_⟩
    · unfold string.split_any
      rw [if_pos hdl, h1]
      simp only [Outcome.bind]
      rw [split_collect_valid _ _ _ hle]
      simp
    · intro k hk
      have hk' : k < toks.length := by simpa using hk
      rw [get_token_of_lt ⟨self.data, toks⟩ k hk' (hle _ (List.getElem_mem hk'))]
      simp

theorem split_as_get_token_witness :
    ([','] : List Char) ≠ [] ∧
    ∃ n s1 v, (lit "a,b").tokenize [','] [] = .returns n s1 ∧
      (lit "a,b").split [','] [] = .returns v s1 ∧ v.length = n ∧
      ∀ (k : Nat) (hk : k < v.length), s1.get_token k = .returns v[k] s1 :=
  ⟨by decide, (split_as_get_token (lit "a,b") [','] [] (by decide)).1⟩

/-! ## Tokenizing with quote characters -/

theorem charAt_of_drop (txt : List Char) (i : Nat) (x : Char) (r : List Char)
    (h : txt.drop i = x :: r) : std.string.charAt txt i = .ok x := by
  rw [charAt_ok_iff]
  have := congrArg List.head? h
  simpa [List.head?_drop] using this

theorem length_of_drop (txt : List Char) (i : Nat) (x : Char) (r : List Char)
    (h : txt.drop i = x :: r) : txt.length = i + r.length + 1 := by
  have := congrArg List.length h
  simp only [List.length_drop, List.length_cons] at this
  omega

theorem drop_succ_of_drop (txt : List Char) (i : Nat) (x : Char) (r : List Char)
    (h : txt.drop i = x :: r) : txt.drop (i + 1) = r := by
  have : txt.drop (i + 1) = (txt.drop i).drop 1 := by rw [List.drop_drop, Nat.add_comm]
  rw [this, h]
  rfl

theorem find_char_scan_append (x : Char) :
    ∀ (body rest : List Char) (k : Nat), x ∉ body →
      std.string.find_char_scan x (body ++ x :: rest) k = some (k + body.length) := by
  intro body
  induction body with
  | nil => intro rest k _; simp [std.string.find_char_scan]
  | cons y ys ih =>
    intro rest k hx
    have hy : y ≠ x := fun h => hx (by simp [h])
    rw [List.cons_append, std.string.find_char_scan, if_neg hy,
      ih rest (k + 1) (fun h => hx (List.mem_cons_of_mem _ h))]
    simp only [List.length_cons]
    congr 1
    omega

/-- The span cached at a boundary whose inner end is not a quote character. -/
theorem token_span_unquoted (q txt : List Char) (acc : List (Nat × Nat)) (i last temp : Nat)
    (z : Char) (r : List Char)
    (ht : temp = if i > 0 ∧ i + 1 < txt.length then i - 1 else i)
    (hz : txt.drop temp = z :: r) (hq : string.has_char q z = false) :
    string.token_span ⟨txt, acc⟩ q txt.length i last = .ok (last, temp) := by
  unfold string.token_span
  simp only
  rw [← ht]
  split
  · rw [charAt_of_drop _ _ _ _ hz]
    simp [hq]
  · rfl

/-- The span cached at a boundary between two quote characters. -/
theorem token_span_quoted (q txt : List Char) (acc : List (Nat × Nat)) (i last temp : Nat)
    (z w : Char) (r r1 : List Char)
    (ht : temp = if i > 0 ∧ i + 1 < txt.length then i - 1 else i)
    (hne : last ≠ temp) (hpos : temp > 0)
    (hz : txt.drop temp = z :: r) (hq : string.has_char q z = true)
    (hw : txt.drop last = w :: r1) (hqw : string.has_char q w = true) :
    string.token_span ⟨txt, acc⟩ q txt.length i last = .ok (last + 1, temp - 1) := by
  unfold string.token_span
  simp only
  rw [← ht, if_pos ⟨hne, hpos⟩, charAt_of_drop _ _ _ _ hz]
  simp only [hq, if_true]
  rw [charAt_of_drop _ _ _ _ hw]
  simp [hqw]

theorem quote_jump_plain (q txt : List Char) (acc : List (Nat × Nat)) (x : Char) (i : Nat)
    (hq : string.has_char q x = false) : string.quote_jump ⟨txt, acc⟩ q x i = i := by
  simp [string.quote_jump, hq]

/-- An iteration at a character that is neither a quote character nor the start
of the delimiter nor the last character only advances `i`. -/
theorem tokenize_loop_plain (d q txt : List Char) (acc : List (Nat × Nat)) (fuel i last : Nat)
    (x y : Char) (r : List Char) (h : txt.drop i = x :: y :: r)
    (hq : string.has_char q x = false) (hno : ¬ d <+: x :: y :: r) :
    string.tokenize_loop d q txt.length (fuel + 1) i last ⟨txt, acc⟩
      = string.tokenize_loop d q txt.length fuel (i + 1) last ⟨txt, acc⟩ := by
  have hlen := length_of_drop _ _ _ _ h
  simp only [List.length_cons] at hlen
  have hcmp : ¬ List.take d.length (List.drop i txt) = d := by
    rw [prefix_iff_take_eq, h]; exact hno
  rw [string.tokenize_loop, if_pos (by omega), string.tokenize_body,
    charAt_of_drop _ _ _ _ h]
  simp only [quote_jump_plain _ _ _ _ _ hq]
  rw [if_neg (by omega), compare_eq_zero_of_le _ _ _ _ (by omega)]
  simp [hcmp]

/-- An iteration at a delimiter inside the text that is not a quote character
caches the span and moves `i` and `last` behind the delimiter. -/
theorem tokenize_loop_boundary (d q txt : List Char) (acc : List (Nat × Nat))
    (fuel i last : Nat) (x y : Char) (r : List Char) (span : Nat × Nat)
    (h : txt.drop i = x :: y :: r) (hq : string.has_char q x = false)
    (hm : d <+: x :: y :: r)
    (hspan : string.token_span ⟨txt, acc⟩ q txt.length i last = .ok span) :
    string.tokenize_loop d q txt.length (fuel + 1) i last ⟨txt, acc⟩
      = string.tokenize_loop d q txt.length fuel (i + d.length) (i + d.length)
          ⟨txt, acc ++ [span]⟩ := by
  have hlen := length_of_drop _ _ _ _ h
  simp only [List.length_cons] at hlen
  have hcmp : List.take d.length (List.drop i txt) = d := by
    rw [prefix_iff_take_eq, h]; exact hm
  rw [string.tokenize_loop, if_pos (by omega), string.tokenize_body,
    charAt_of_drop _ _ _ _ h]
  simp only [quote_jump_plain _ _ _ _ _ hq]
  rw [if_neg (by omega), compare_eq_zero_of_le _ _ _ _ (by omega)]
  simp [hcmp, hspan]

/-- The iteration at the last character, when it is not a quote character, caches
the span and ends the loop. -/
theorem tokenize_loop_final (d q txt : List Char) (acc : List (Nat × Nat))
    (fuel i last : Nat) (x : Char) (span : Nat × Nat) (hd : d ≠ [])
    (h : txt.drop i = [x]) (hq : string.has_char q x = false)
    (hspan : string.token_span ⟨txt, acc⟩ q txt.length i last = .ok span) :
    string.tokenize_loop d q txt.length (fuel + 2) i last ⟨txt, acc⟩
      = .returns () ⟨txt, acc ++ [span]⟩ := by
  have hlen := length_of_drop _ _ _ _ h
  simp only [List.length_nil] at hlen
  have hdl : 0 < d.length := List.length_pos.mpr hd
  rw [string.tokenize_loop, if_pos (by omega), string.tokenize_body,
    charAt_of_drop _ _ _ _ h]
  simp only [quote_jump_plain _ _ _ _ _ hq]
  rw [if_pos (by omega)]
  simp only [hspan]
  rw [string.tokenize_loop, if_neg (by omega)]

/-- An iteration at an opening quote character whose closing partner is neither
the last character nor the start of the delimiter moves `i` behind the
partner. -/
theorem tokenize_loop_quote (d q txt : List Char) (acc : List (Nat × Nat))
    (fuel i last t : Nat) (x : Char) (r : List Char)
    (h : txt.drop i = x :: r) (hq : string.has_char q x = true)
    (hfind : std.string.find_char txt x (i + 1) = some t)
    (ht : t + 1 < txt.length) (hno : ¬ d <+: txt.drop t) :
    string.tokenize_loop d q txt.length (fuel + 1) i last ⟨txt, acc⟩
      = string.tokenize_loop d q txt.length fuel (t + 1) last ⟨txt, acc⟩ := by
  have hlen := length_of_drop _ _ _ _ h
  have hcmp : ¬ List.take d.length (List.drop t txt) = d := by
    rw [prefix_iff_take_eq]; exact hno
  have hj : string.quote_jump ⟨txt, acc⟩ q x i = t := by
    simp [string.quote_jump, hq, hfind]
  rw [string.tokenize_loop, if_pos (by omega), string.tokenize_body,
    charAt_of_drop _ _ _ _ h]
  simp only [hj]
  rw [if_neg (by omega), compare_eq_zero_of_le _ _ _ _ (by omega)]
  simp [hcmp]

/-- A run of characters that are neither quote characters nor the start of the
delimiter, none of them the last character, is skipped. -/
theorem tokenize_loop_run (d q : List Char) (hd : d ≠ []) :
    ∀ (run : List Char) (txt : List Char) (acc : List (Nat × Nat)) (fuel i last : Nat)
      (y : Char) (r : List Char), txt.drop i = run ++ y :: r →
      (∀ x ∈ run, string.has_char q x = false ∧ d.head? ≠ some x) →
      string.tokenize_loop d q txt.length (fuel + run.length) i last ⟨txt, acc⟩
        = string.tokenize_loop d q txt.length fuel (i + run.length) last ⟨txt, acc⟩ := by
  intro run
  induction run with
  | nil => intro txt acc fuel i last y r _ _; rfl
  | cons x xs ih =>
    intro txt acc fuel i last y r h hrun
    have hx := hrun x (List.mem_cons_self _ _)
    have hnext : ∃ y1 r1, xs ++ y :: r = y1 :: r1 := by
      cases xs with
      | nil => exact ⟨y, r, rfl⟩
      | cons a as => exact ⟨a, as ++ y :: r, rfl⟩
    obtain ⟨y1, r1, hy1⟩ := hnext
    have h1 : txt.drop i = x :: y1 :: r1 := by rw [h, List.cons_append, hy1]
    have hno : ¬ d <+: x :: y1 :: r1 := by
      intro hp
      cases d with
      | nil => exact hd rfl
      | cons a as =>
        have := (List.cons_prefix_cons.mp hp).1
        exact hx.2 (by rw [this]; rfl)
    rw [show fuel + (x :: xs).length = (fuel + xs.length) + 1 by simp; omega,
      tokenize_loop_plain d q txt acc _ i last x y1 r1 h1 hx.1 hno,
      ih txt acc fuel (i + 1) last y r
        (by rw [drop_succ_of_drop _ _ _ _ h1, ← hy1])
        (fun z hz => hrun z (List.mem_cons_of_mem _ hz))]
    simp only [List.length_cons]
    congr 1
    omega

theorem drop_add_of_drop (txt : List Char) (i : Nat) (P R : List Char)
    (h : txt.drop i = P ++ R) : txt.drop (i + P.length) = R := by
  have : txt.drop (i + P.length) = (txt.drop i).drop P.length := by
    rw [List.drop_drop, Nat.add_comm]
  rw [this, h, List.drop_left]

theorem has_char_singleton (q x : Char) : string.has_char [q] x = decide (x = q) := by
  rw [Bool.eq_iff_iff, has_char_iff]
  simp

/-- The loop of `tokenize` on `A + d + q + body + q + d + B`, with the last
characters of `A` and `B` singled out. -/
theorem tokenize_loop_quoted (d q z w : Char) (A0 body B0 : List Char) (extra : Nat)
    (hdq : q ≠ d) (hzd : z ≠ d) (hzq : z ≠ q) (hwq : w ≠ q)
    (hAd : d ∉ A0) (hAq : q ∉ A0) (hBd : d ∉ B0) (hBq : q ∉ B0) (hbody : q ∉ body)
    (txt : List Char)
    (htxt : txt = A0 ++ z :: d :: q :: (body ++ q :: d :: (B0 ++ [w]))) :
    string.tokenize_loop [d] [q] txt.length (extra + A0.length + B0.length + 6) 0 0 ⟨txt, []⟩
      = .returns () ⟨txt, [(0, A0.length), (A0.length + 3, A0.length + 2 + body.length),
          (A0.length + 5 + body.length, A0.length + 5 + body.length + B0.length)]⟩ := by
  have hlen : txt.length = A0.length + body.length + B0.length + 6 := by
    rw [htxt]; simp; omega
  have hplain : ∀ x, x ≠ q → string.has_char [q] x = false := by
    intro x hx; rw [has_char_singleton]; simpa using hx
  have hquote : string.has_char [q] q = true := by
    rw [has_char_singleton]; simp
  -- the text from each position of interest on
  have h0 : txt.drop 0 = (A0 ++ [z]) ++ d :: q :: (body ++ q :: d :: (B0 ++ [w])) := by
    rw [List.drop_zero, htxt]; simp
  have hz0 : txt.drop A0.length = z :: d :: q :: (body ++ q :: d :: (B0 ++ [w])) := by
    rw [htxt, List.drop_left]
  have h1 := drop_succ_of_drop _ _ _ _ hz0
  have h2 := drop_succ_of_drop _ _ _ _ h1
  have h3 := drop_succ_of_drop _ _ _ _ h2
  have h4 := drop_add_of_drop _ _ _ _ h3
  have h5 := drop_succ_of_drop _ _ _ _ h4
  have h6 := drop_succ_of_drop _ _ _ _ h5
  have h7 := drop_add_of_drop _ _ _ _ h6
  obtain ⟨y, r, hyr⟩ : ∃ y r, B0 ++ [w] = y :: r := by
    cases B0 with
    | nil => exact ⟨w, [], rfl⟩
    | cons b bs => exact ⟨b, bs ++ [w], rfl⟩
  -- the scan of `A`
  have hrunA := tokenize_loop_run [d] [q] (by simp) (A0 ++ [z]) txt []
    (extra + B0.length + 5) 0 0 d (q :: (body ++ q :: d :: (B0 ++ [w]))) h0
    (by
      intro x hx
      rw [List.mem_append, List.mem_singleton] at hx
      rcases hx with hx | hx
      · exact ⟨hplain x (fun h => hAq (h ▸ hx)), by
          simp only [List.head?_cons, ne_eq, Option.some.injEq]
          exact fun h => hAd (h ▸ hx)⟩
      · subst hx
        exact ⟨hplain x hzq, by simpa using Ne.symm hzd⟩)
  simp only [List.length_append, List.length_singleton, Nat.zero_add] at hrunA
  rw [show extra + A0.length + B0.length + 6 = extra + B0.length + 5 + (A0.length + 1) by omega,
    hrunA]
  -- the delimiter behind `A`
  have hspan1 : string.token_span ⟨txt, []⟩ [q] txt.length (A0.length + 1) 0
      = .ok (0, A0.length) :=
    token_span_unquoted [q] txt [] (A0.length + 1) 0 A0.length z _
      (by rw [if_pos (by omega)]; omega) hz0 (hplain z hzq)
  rw [show extra + B0.length + 5 = (extra + B0.length + 4) + 1 by omega,
    tokenize_loop_boundary [d] [q] txt [] _ (A0.length + 1) 0 d q _ _ h1
      (hplain d (Ne.symm hdq)) (by simp) hspan1]
  simp only [List.length_singleton, List.nil_append]
  -- the quoted part
  have hfind : std.string.find_char txt q (A0.length + 1 + 1 + 1)
      = some (A0.length + 1 + 1 + 1 + body.length) := by
    unfold std.string.find_char
    rw [h3]
    exact find_char_scan_append q body _ _ hbody
  rw [show extra + B0.length + 4 = (extra + B0.length + 3) + 1 by omega,
    tokenize_loop_quote [d] [q] txt _ _ (A0.length + 1 + 1) _
      (A0.length + 1 + 1 + 1 + body.length) q _ h2 hquote hfind (by omega)
      (by
        rw [h4]
        intro hp
        exact hdq (List.cons_prefix_cons.mp hp).1.symm)]
  -- the delimiter behind the closing quote
  have hspan2 : string.token_span ⟨txt, [(0, A0.length)]⟩ [q] txt.length
      (A0.length + 1 + 1 + 1 + body.length + 1) (A0.length + 1 + 1)
      = .ok (A0.length + 1 + 1 + 1, A0.length + 1 + 1 + 1 + body.length - 1) :=
    token_span_quoted [q] txt _ _ _ (A0.length + 1 + 1 + 1 + body.length) q q _ _
      (by rw [if_pos (by omega)]; omega) (by omega) (by omega) h4 hquote h2 hquote
  rw [hyr] at h5
  rw [show extra + B0.length + 3 = (extra + B0.length + 2) + 1 by omega,
    tokenize_loop_boundary [d] [q] txt _ _ (A0.length + 1 + 1 + 1 + body.length + 1)
      (A0.length + 1 + 1) d y r _ h5 (hplain d (Ne.symm hdq)) (by simp) hspan2]
  simp only [List.length_singleton, List.singleton_append]
  -- the scan of `B` and its last character
  have hrunB := tokenize_loop_run [d] [q] (by simp) B0 txt
    [(0, A0.length), (A0.length + 1 + 1 + 1, A0.length + 1 + 1 + 1 + body.length - 1)]
    (extra + 2) (A0.length + 1 + 1 + 1 + body.length + 1 + 1)
    (A0.length + 1 + 1 + 1 + body.length + 1 + 1) w [] h6
    (by
      intro x hx
      exact ⟨hplain x (fun h => hBq (h ▸ hx)), by
        simp only [List.head?_cons, ne_eq, Option.some.injEq]
        exact fun h => hBd (h ▸ hx)⟩)
  have hspan3 : string.token_span
      ⟨txt, [(0, A0.length), (A0.length + 1 + 1 + 1, A0.length + 1 + 1 + 1 + body.length - 1)]⟩
      [q] txt.length (A0.length + 1 + 1 + 1 + body.length + 1 + 1 + B0.length)
      (A0.length + 1 + 1 + 1 + body.length + 1 + 1)
      = .ok (A0.length + 1 + 1 + 1 + body.length + 1 + 1,
          A0.length + 1 + 1 + 1 + body.length + 1 + 1 + B0.length) :=
    token_span_unquoted [q] txt _ _ _ _ w [] (by rw [if_neg (by omega)]) h7 (hplain w hwq)
  rw [show extra + B0.length + 2 = (extra + 2) + B0.length by omega, hrunB,
    tokenize_loop_final [d] [q] txt _ extra _ _ w _ (by simp) h7 (hplain w hwq) hspan3]
  simp only [List.cons_append, List.nil_append, Outcome.returns.injEq, string.mk.injEq,
    List.cons.injEq, Prod.mk.injEq, true_and, and_true]
  omega

theorem get_token_at (self : string) (k : Nat) (p : Nat × Nat) (h : self.tokens[k]? = some p)
    (hsize : self.size < SIZE_MOD) (h1 : p.1 ≤ p.2 + 1) (h2 : p.2 < self.size) :
    self.get_token k
      = .returns (string.of_std ((self.data.drop p.1).take (p.2 + 1 - p.1))) self := by
  have hk : k < self.tokens.length := by
    by_contra hn
    rw [List.getElem?_eq_none (by omega)] at h
    cases h
  unfold string.get_token
  rw [if_neg (by omega), List.get?_eq_getElem?, h]
  exact slice_of_le self p.1 p.2 hsize h1 h2

/-- C13: quoting keeps a quoted span together and strips its quotes.  For a
one-character delimiter `d`, a quote character `q` different from `d`,
non-empty `A` and `B` containing neither `d` nor `q` and a `body` not
containing `q`, `tokenize(d, q)` on `A + d + q + body + q + d + B` returns 3 and
the three tokens are `A`, `body` and `B`.  On `say "hello world" now` with the
space as delimiter and the double quote as quote character the tokens are
`say`, `hello world`, `now`. -/
theorem tokenize_quoted (self : string) (d q : Char) (A body B : List Char)
    (hdq : q ≠ d) (hA : A ≠ []) (hB : B ≠ [])
    (hAd : d ∉ A) (hAq : q ∉ A) (hBd : d ∉ B) (hBq : q ∉ B) (hbody : q ∉ body)
    (hc : self.data = A ++ [d] ++ [q] ++ body ++ [q] ++ [d] ++ B)
    (hsize : self.size < SIZE_MOD) :
    (∃ s1, self.tokenize [d] [q] = .returns 3 s1 ∧ s1.data = self.data ∧
      s1.get_token 0 = .returns (string.of_std A) s1 ∧
      s1.get_token 1 = .returns (string.of_std body) s1 ∧
      s1.get_token 2 = .returns (string.of_std B) s1) ∧
    (∃ s1, (lit "say \"hello world\" now").split [' '] ['"']
      = .returns [lit "say", lit "hello world", lit "now"] s1) := by
  refine ⟨?_, ⟨⟨"say \"hello world\" now".toList, [(0, 2), (5, 15), (18, 20)]⟩, by decide⟩⟩
  obtain ⟨A0, z, rfl⟩ : ∃ A0 z, A = A0 ++ [z] := by
    rcases List.eq_nil_or_concat A with h | ⟨L, b, h⟩
    · exact absurd h hA
    · exact ⟨L, b, by simpa using h⟩
  obtain ⟨B0, w, rfl⟩ : ∃ B0 w, B = B0 ++ [w] := by
    rcases List.eq_nil_or_concat B with h | ⟨L, b, h⟩
    · exact absurd h hB
    · exact ⟨L, b, by simpa using h⟩
  have hzd : z ≠ d := fun h => hAd (by simp [h])
  have hzq : z ≠ q := fun h => hAq (by simp [h])
  have hwq : w ≠ q := fun h => hBq (by simp [h])
  have htxt : self.data = A0 ++ z :: d :: q :: (body ++ q :: d :: (B0 ++ [w])) := by
    rw [hc]; simp
  have hlen : self.data.length = A0.length + body.length + B0.length + 6 := by
    rw [htxt]; simp; omega
  have hloop := tokenize_loop_quoted d q z w A0 body B0 (body.length + 1) hdq hzd hzq hwq
    (fun h => hAd (by simp [h])) (fun h => hAq (by simp [h]))
    (fun h => hBd (by simp [h])) (fun h => hBq (by simp [h])) hbody self.data htxt
  have hs : self.data.length < SIZE_MOD := hsize
  have h3 : self.data.drop (A0.length + 3) = body ++ q :: d :: (B0 ++ [w]) := by
    have := drop_add_of_drop self.data 0 (A0 ++ [z, d, q]) (body ++ q :: d :: (B0 ++ [w]))
      (by rw [List.drop_zero, htxt]; simp)
    simpa using this
  have h6 : self.data.drop (A0.length + 5 + body.length) = B0 ++ [w] := by
    have := drop_add_of_drop self.data (A0.length + 3) (body ++ [q, d]) (B0 ++ [w])
      (by rw [h3]; simp)
    rw [← this]
    congr 1
    simp only [List.length_append, List.length_cons, List.length_nil]
    omega
  obtain ⟨T, hT⟩ : ∃ T : List (Nat × Nat),
      T = [(0, A0.length), (A0.length + 3, A0.length + 2 + body.length),
        (A0.length + 5 + body.length, A0.length + 5 + body.length + B0.length)] := ⟨_, rfl⟩
  rw [← hT] at hloop
  have hsize1 : (⟨self.data, T⟩ : string).size < SIZE_MOD := hsize
  have e0 : (⟨self.data, T⟩ : string).tokens[0]? = some (0, A0.length) := by rw [hT]; rfl
  have e1 : (⟨self.data, T⟩ : string).tokens[1]?
      = some (A0.length + 3, A0.length + 2 + body.length) := by rw [hT]; rfl
  have e2 : (⟨self.data, T⟩ : string).tokens[2]?
      = some (A0.length + 5 + body.length, A0.length + 5 + body.length + B0.length) := by
    rw [hT]; rfl
  refine ⟨⟨self.data, T⟩, ?_, rfl, ?_, ?_, ?_⟩
  · unfold string.tokenize
    simp only [string.size]
    rw [show self.data.length + 1 = body.length + 1 + A0.length + B0.length + 6 by omega, hloop]
    simp [Outcome.bind, hT]
  · rw [get_token_at _ 0 _ e0 hsize1 (by simp) (by simp only [string.size]; omega)]
    simp only [List.drop_zero, Outcome.returns.injEq, and_true]
    congr 1
    rw [htxt, show A0 ++ z :: d :: q :: (body ++ q :: d :: (B0 ++ [w]))
      = (A0 ++ [z]) ++ d :: q :: (body ++ q :: d :: (B0 ++ [w])) by simp]
    rw [show A0.length + 1 - 0 = (A0 ++ [z]).length by simp, List.take_left]
  · rw [get_token_at _ 1 _ e1 hsize1 (by simp only; omega) (by simp only [string.size]; omega)]
    simp only [Outcome.returns.injEq, and_true]
    congr 1
    rw [h3, show A0.length + 2 + body.length + 1 - (A0.length + 3) = body.length by omega,
      List.take_left]
  · rw [get_token_at _ 2 _ e2 hsize1 (by simp only; omega) (by simp only [string.size]; omega)]
    simp only [Outcome.returns.injEq, and_true]
    congr 1
    rw [h6, show A0.length + 5 + body.length + B0.length + 1 - (A0.length + 5 + body.length)
      = (B0 ++ [w]).length by simp; omega]
    exact List.take_length _

theorem tokenize_quoted_witness :
    ('"' : Char) ≠ ' ' ∧ ['a'] ≠ ([] : List Char) ∧ ['c'] ≠ ([] : List Char) ∧
    ' ' ∉ ['a'] ∧ '"' ∉ ['a'] ∧ ' ' ∉ ['c'] ∧ '"' ∉ ['c'] ∧ '"' ∉ ['b', ' ', 'b'] ∧
    (lit "a \"b b\" c").data
      = ['a'] ++ [' '] ++ ['"'] ++ ['b', ' ', 'b'] ++ ['"'] ++ [' '] ++ ['c'] ∧
    (lit "a \"b b\" c").size < SIZE_MOD ∧
    ∃ s1, (lit "a \"b b\" c").tokenize [' '] ['"'] = .returns 3 s1 ∧
      s1.data = (lit "a \"b b\" c").data ∧
      s1.get_token 0 = .returns (string.of_std ['a']) s1 ∧
      s1.get_token 1 = .returns (string.of_std ['b', ' ', 'b']) s1 ∧
      s1.get_token 2 = .returns (string.of_std ['c']) s1 :=
  ⟨by decide, by decide, by decide, by decide, by decide, by decide, by decide, by decide,
    by decide, by decide,
    (tokenize_quoted (lit "a \"b b\" c") ' ' '"' ['a'] ['b', ' ', 'b'] ['c']
      (by decide) (by decide) (by decide) (by decide) (by decide) (by decide) (by decide)
      (by decide) (by decide) (by decide)).1⟩

/-! ## The token cache -/

/-- C14: the token cache holds only valid offsets.  For a non-empty delimiter and
any quote characters, `tokenize` and `tokenize_any` return without raising an
error, keep the content, and every pair `(start, end)` they cache has
`start < s` and `end < s` for the length `s` of the content; hence
`get_token(k)` raises no error for any `k < token_size()`. -/
theorem token_cache_valid (self : string) (d q : List Char) (hd : d ≠ []) :
    (∃ n s1, self.tokenize d q = .returns n s1 ∧ s1.data = self.data ∧
      n = s1.token_size ∧ (∀ p ∈ s1.tokens, p.1 < self.size ∧ p.2 < self.size) ∧
      ∀ k, k < s1.token_size → ∃ t, s1.get_token k = .returns t s1) ∧
    (∃ n s1, self.tokenize_any d q = .returns n s1 ∧ s1.data = self.data ∧
      n = s1.token_size ∧ (∀ p ∈ s1.tokens, p.1 < self.size ∧ p.2 < self.size) ∧
      ∀ k, k < s1.token_size → ∃ t, s1.get_token k = .returns t s1) := by
  constructor
  · obtain ⟨toks, h1, h2, -⟩ := tokenize_returns self d q hd
    refine ⟨_, _, h1, rfl, rfl, h2, ?_⟩
    intro k hk
    have hk' : k < toks.length := hk
    exact ⟨_, get_token_of_lt ⟨self.data, toks⟩ k hk'
      (le_of_lt (h2 _ (List.getElem_mem hk')).1)⟩
  · obtain ⟨toks, h1, h2, -⟩ := tokenize_any_returns self d q
    refine ⟨_, _, h1, rfl, rfl, h2, ?_⟩
    intro k hk
    have hk' : k < toks.length := hk
    exact ⟨_, get_token_of_lt ⟨self.data, toks⟩ k hk'
      (le_of_lt (h2 _ (List.getElem_mem hk')).1)⟩

theorem token_cache_valid_witness :
    ([','] : List Char) ≠ [] ∧
    ∃ n s1, (lit "\"a\",b").tokenize [','] ['"'] = .returns n s1 ∧
      s1.data = (lit "\"a\",b").data ∧ n = s1.token_size ∧
      (∀ p ∈ s1.tokens, p.1 < (lit "\"a\",b").size ∧ p.2 < (lit "\"a\",b").size) ∧
      ∀ k, k < s1.token_size → ∃ t, s1.get_token k = .returns t s1 :=
  ⟨by decide, (token_cache_valid (lit "\"a\",b") [','] ['"'] (by decide)).1⟩

/-- C15: for an index `n` not below the token count `m`, `get_token(n)` fails with
the message `"mad::string::get_token(): "`, the decimal digits of `n`,
`" Exceeds token size, which is "`, the decimal digits of `m` and a final
period; `get_token_pos(n)` fails with the same message under its own name. -/
theorem token_error_message (self : string) (n : Nat) (h : n ≥ self.token_size) :
    self.get_token n
      = .throws (.out_of_range ("mad::string::get_token(): " ++ Nat.repr n
          ++ " Exceeds token size, which is " ++ Nat.repr self.token_size ++ ".")) self ∧
    self.get_token_pos n
      = .throws (.out_of_range ("mad::string::get_token_pos(): " ++ Nat.repr n
          ++ " Exceeds token size, which is " ++ Nat.repr self.token_size ++ ".")) self ∧
    (lit "abc").get_token 12
      = .throws (.out_of_range "mad::string::get_token(): 12 Exceeds token size, which is 0.")
          (lit "abc") ∧
    string.get_token_pos ⟨['a', ' ', 'b'], [(0, 0), (2, 2)]⟩ 2
      = .throws
          (.out_of_range "mad::string::get_token_pos(): 2 Exceeds token size, which is 2.")
          ⟨['a', ' ', 'b'], [(0, 0), (2, 2)]⟩ := by
  have h' : n ≥ self.tokens.length := h
  refine ⟨?_, ?_, by decide, by decide⟩
  · unfold string.get_token
    rw [if_pos h']
    rfl
  · unfold string.get_token_pos
    rw [if_pos h']
    rfl

theorem token_error_message_witness :
    5 ≥ (lit "abc").token_size ∧
    (lit "abc").get_token 5
      = .throws (.out_of_range ("mad::string::get_token(): " ++ Nat.repr 5
          ++ " Exceeds token size, which is " ++ Nat.repr (lit "abc").token_size ++ "."))
          (lit "abc") :=
  ⟨by decide, (token_error_message (lit "abc") 5 (by decide)).1⟩

/-- C16: a tokenizing call replaces the cache and touches nothing else.  The
outcome of `tokenize` and of `tokenize_any` is the same for two values with the
same content, whatever their caches hold; when the call returns, the count is
`token_size()` afterwards and the content is unchanged; and the call never
throws. -/
theorem tokenize_replaces_cache (self other : string) (d q : List Char)
    (h : self.data = other.data) :
    self.tokenize d q = other.tokenize d q ∧
    self.tokenize_any d q = other.tokenize_any d q ∧
    (∀ n s1, self.tokenize d q = .returns n s1 → n = s1.token_size ∧ s1.data = self.data) ∧
    (∀ n s1, self.tokenize_any d q = .returns n s1 →
      n = s1.token_size ∧ s1.data = self.data) ∧
    (∀ e s1, self.tokenize d q ≠ .throws e s1) ∧
    (∀ e s1, self.tokenize_any d q ≠ .throws e s1) := by
  refine ⟨?_, ?_, ?_, ?_, ?_, ?_⟩
  · unfold string.tokenize
    simp only [string.size, h]
  · unfold string.tokenize_any
    simp only [string.size, h]
  · intro n s1 hr
    obtain ⟨h1, -, h3⟩ := tokenize_returns_inv self d q n s1 hr
    exact ⟨h3, h1⟩
  · intro n s1 hr
    obtain ⟨h1, -, h3⟩ := tokenize_any_returns_inv self d q n s1 hr
    exact ⟨h3, h1⟩
  · intro e s1 hr
    unfold string.tokenize at hr
    simp only at hr
    rcases tokenize_loop_inv d q (self.data.length + 1) 0 0 ⟨self.data, []⟩ (le_refl _)
      (by intro p hp; simp at hp) with hd | ⟨s2, hd, -, -⟩
    · simp only [string.size] at hd hr
      rw [hd] at hr
      cases hr
    · simp only [string.size] at hd hr
      rw [hd] at hr
      cases hr
  · intro e s1 hr
    unfold string.tokenize_any at hr
    simp only at hr
    rcases tokenize_any_loop_inv d q (self.data.length + 1) 0 0 ⟨self.data, []⟩ (le_refl _)
      (by intro p hp; simp at hp) with hd | ⟨s2, hd, -, -⟩
    · simp only [string.size] at hd hr
      rw [hd] at hr
      cases hr
    · simp only [string.size] at hd hr
      rw [hd] at hr
      cases hr

theorem tokenize_replaces_cache_witness :
    (⟨['a', ' ', 'b'], [(7, 9), (1, 1), (0, 0)]⟩ : string).data = (lit "a b").data ∧
    string.tokenize ⟨['a', ' ', 'b'], [(7, 9), (1, 1), (0, 0)]⟩ [' '] []
      = (lit "a b").tokenize [' '] [] ∧
    (lit "a b").tokenize [' '] [] = .returns 2 ⟨['a', ' ', 'b'], [(0, 0), (2, 2)]⟩ :=
  ⟨by decide,
    (tokenize_replaces_cache ⟨['a', ' ', 'b'], [(7, 9), (1, 1), (0, 0)]⟩ (lit "a b") [' '] []
      (by decide)).1, by decide⟩

/-! ## Splitting on the existing cache -/

theorem slice_post (self : string) (pos1 pos2 : Nat) :
    (∃ t, self.slice pos1 pos2 = .returns t self) ∨ ∃ e, self.slice pos1 pos2 = .throws e self := by
  unfold string.slice
  cases std.string.substr self.data pos1 (size_sub (size_add pos2 1) pos1) with
  | ok s => exact Or.inl ⟨_, rfl⟩
  | error e => exact Or.inr ⟨_, rfl⟩

theorem slice_throws_of_gt (self : string) (p : Nat × Nat) (hp : self.size < p.1) :
    ∃ e, self.slice p.1 p.2 = .throws e self := by
  have hp' : p.1 > self.data.length := hp
  refine ⟨.out_of_range "basic_string::substr", ?_⟩
  simp [string.slice, std.string.substr, hp']

/-- The loop of `split` ends and leaves the value as it is. -/
theorem split_collect_post (self : string) :
    ∀ (ps : List (Nat × Nat)) (v : List string),
      (string.split_collect self ps v).post = some self := by
  intro ps
  induction ps with
  | nil => intro v; rfl
  | cons p ps ih =>
    intro v
    unfold string.split_collect
    rcases slice_post self p.1 p.2 with ⟨t, ht⟩ | ⟨e, he⟩
    · rw [ht]
      exact ih _
    · rw [he]
      rfl

/-- The loop of `split` returns only when the first position of every pair is
inside the text. -/
theorem split_collect_returns (self : string) :
    ∀ (ps : List (Nat × Nat)) (v w : List string) (s1 : string),
      string.split_collect self ps v = .returns w s1 → ∀ p ∈ ps, p.1 ≤ self.size := by
  intro ps
  induction ps with
  | nil => intro v w s1 _ p hp; simp at hp
  | cons p0 ps ih =>
    intro v w s1 h p hp
    unfold string.split_collect at h
    by_cases hle : p0.1 ≤ self.size
    · rw [slice_eq_slice_value self p0 hle] at h
      rcases List.mem_cons.mp hp with hp | hp
      · subst hp; exact hle
      · exact ih _ w s1 h p hp
    · obtain ⟨e, he⟩ := slice_throws_of_gt self p0 (by omega)
      rw [he] at h
      cases h

/-- C17, as stated, fails: on the content `"a"` with the cache `(0,0), (2,2)` left
by an earlier tokenizing call on a longer content, `split()` does not return a
sequence: the slice of the second pair starts beyond the content and the
exception of `substr` is propagated. -/
theorem split_stale_cache_counterexample :
    string.split ⟨['a'], [(0, 0), (2, 2)]⟩ [] []
      = .throws (.out_of_range "basic_string::substr") ⟨['a'], [(0, 0), (2, 2)]⟩ ∧
    string.split_any ⟨['a'], [(0, 0), (2, 2)]⟩ [] []
      = .throws (.out_of_range "basic_string::substr") ⟨['a'], [(0, 0), (2, 2)]⟩ ∧
    ¬ ∀ (self : string) (q : List Char),
      self.split [] q = .returns (self.tokens.map (slice_value self)) self := by
  refine ⟨by decide, by decide, ?_⟩
  intro h
  have := h ⟨['a'], [(0, 0), (2, 2)]⟩ []
  revert this
  decide

/-- C17, amended: `split` and `split_any` called with an empty delimiter do not
tokenize again.  For every value whose cached pairs all start at or before the
end of the content they leave the content and the token cache as they are and
return the sequence of the slices of the cached pairs in order.  After
`tokenize(d, q)` on the current content `split()` returns what `split(d, q)`
returns, the slices of the new cache, and on a value that was never tokenized
it returns the empty sequence.  For every value at all the call ends and
leaves the value as it is, and it returns exactly when every cached pair
starts at or before the end of the content. -/
theorem split_uses_cache (self : string) (q : List Char)
    (hvalid : ∀ p ∈ self.tokens, p.1 ≤ self.size) :
    self.split [] q = .returns (self.tokens.map (slice_value self)) self ∧
    self.split_any [] q = .returns (self.tokens.map (slice_value self)) self ∧
    (∀ p ∈ self.tokens, self.slice p.1 p.2 = .returns (slice_value self p) self) ∧
    (∀ (other : string) (d q1 : List Char) (n : Nat) (s1 : string), d ≠ [] →
      other.tokenize d q1 = .returns n s1 →
      s1.split [] q = other.split d q1 ∧
      s1.split [] q = .returns (s1.tokens.map (slice_value s1)) s1) ∧
    (∀ (other : string) (d q1 : List Char) (n : Nat) (s1 : string), d ≠ [] →
      other.tokenize_any d q1 = .returns n s1 →
      s1.split_any [] q = other.split_any d q1 ∧
      s1.split_any [] q = .returns (s1.tokens.map (slice_value s1)) s1) ∧
    (∀ s : List Char, (string.of_std s).split [] q = .returns [] (string.of_std s) ∧
      (string.of_std s).split_any [] q = .returns [] (string.of_std s)) ∧
    (∀ other : string, (other.split [] q).post = some other ∧
      (other.split_any [] q).post = some other ∧
      ((∃ v s1, other.split [] q = .returns v s1) ↔
        ∀ p ∈ other.tokens, p.1 ≤ other.size)) := by
  have hsplit : ∀ other : string,
      other.split [] q = string.split_collect other other.tokens [] := by
    intro other
    simp [string.split, Outcome.bind]
  have hany : ∀ other : string, other.split_any [] q = other.split [] q := by
    intro other
    simp [string.split, string.split_any]
  have hret : ∀ other : string, (∀ p ∈ other.tokens, p.1 ≤ other.size) →
      other.split [] q = .returns (other.tokens.map (slice_value other)) other := by
    intro other h
    rw [hsplit, split_collect_valid other _ _ h]
    simp
  refine ⟨hret self hvalid, by rw [hany]; exact hret self hvalid,
    fun p hp => slice_eq_slice_value self p (hvalid p hp), ?_, ?_, ?_, ?_⟩
  · intro other d q1 n s1 hd ht
    have hdl : d.length ≠ 0 := fun h => hd (List.length_eq_zero.mp h)
    have hv := (tokenize_returns_inv other d q1 n s1 ht).2.1
    refine ⟨by simp [string.split, hdl, ht, Outcome.bind], hret s1 ?_⟩
    exact fun p hp => le_of_lt (hv p hp).1
  · intro other d q1 n s1 hd ht
    have hdl : d.length ≠ 0 := fun h => hd (List.length_eq_zero.mp h)
    have hv := (tokenize_any_returns_inv other d q1 n s1 ht).2.1
    refine ⟨by simp [string.split_any, hdl, ht, Outcome.bind], ?_⟩
    rw [hany]
    exact hret s1 fun p hp => le_of_lt (hv p hp).1
  · intro s
    constructor <;> rfl
  · intro other
    refine ⟨?_, ?_, ⟨?_, fun h => ⟨_, _, hret other h⟩⟩⟩
    · rw [hsplit]
      exact split_collect_post other _ _
    · rw [hany, hsplit]
      exact split_collect_post other _ _
    · rintro ⟨v, s1, h⟩
      rw [hsplit] at h
      exact split_collect_returns other _ _ _ _ h

theorem split_uses_cache_witness :
    (∀ p ∈ (⟨['a', ' ', 'b'], [(0, 0), (2, 2)]⟩ : string).tokens,
      p.1 ≤ (⟨['a', ' ', 'b'], [(0, 0), (2, 2)]⟩ : string).size) ∧
    string.split ⟨['a', ' ', 'b'], [(0, 0), (2, 2)]⟩ [] []
      = .returns ((⟨['a', ' ', 'b'], [(0, 0), (2, 2)]⟩ : string).tokens.map
          (slice_value ⟨['a', ' ', 'b'], [(0, 0), (2, 2)]⟩))
          ⟨['a', ' ', 'b'], [(0, 0), (2, 2)]⟩ ∧
    string.split ⟨['a', ' ', 'b'], [(0, 0), (2, 2)]⟩ [] []
      = .returns [lit "a", lit "b"] ⟨['a', ' ', 'b'], [(0, 0), (2, 2)]⟩ :=
  ⟨by decide,
    (split_uses_cache ⟨['a', ' ', 'b'], [(0, 0), (2, 2)]⟩ [] (by decide)).1,
    by decide⟩

/-! ## Tokens and the delimiter -/

/-- C18, the code at the failing inputs: with the delimiter `","` and no quote
characters, `split` on `",a"` returns `","` and `"a"`, and on `"a,"` it returns
`"a,"`: a token at the start or the end of the content contains the
delimiter. -/
theorem split_keeps_edge_delimiter :
    (lit ",a").split [','] [] = .returns [lit ",", lit "a"] ⟨[',', 'a'], [(0, 0), (1, 1)]⟩ ∧
    [','] <:+: (lit ",").data ∧
    (lit "a,").split [','] [] = .returns [lit "a,"] ⟨['a', ','], [(0, 1)]⟩ ∧
    [','] <:+: (lit "a,").data := by
  decide

/-! ## Termination of `tokenize` -/

/-- More fuel does not change what the loop of `tokenize` returns. -/
theorem tokenize_loop_fuel (d q : List Char) (s : Nat) :
    ∀ (fuel i last : Nat) (self r : string),
      string.tokenize_loop d q s fuel i last self = .returns () r →
      ∀ k, string.tokenize_loop d q s (fuel + k) i last self = .returns () r := by
  intro fuel
  induction fuel with
  | zero => intro i last self r h; simp [string.tokenize_loop] at h
  | succ fuel ih =>
    intro i last self r h k
    rw [show fuel + 1 + k = (fuel + k) + 1 by omega]
    unfold string.tokenize_loop at h ⊢
    by_cases hi : i < s
    · rw [if_pos hi] at h ⊢
      cases hb : string.tokenize_body d q s i last self with
      | error e => rw [hb] at h; cases h
      | ok res =>
        obtain ⟨i1, last1, s1⟩ := res
        rw [hb] at h
        exact ih _ _ _ _ h k
    · rw [if_neg hi] at h ⊢
      exact h

/-- C19: for a non-empty delimiter and any quote characters `tokenize`
terminates.  The call returns, with the count 0 exactly when the content is
empty and at least 1 otherwise; every iteration entered at `i` below the
content length moves `i` forward, to one or to the delimiter length past a
position `j` with `i <= j` (the target of the quote jump) below the content
length; and the loop returns the same with any larger supply of iterations. -/
theorem tokenize_terminates (self : string) (d q : List Char) (hd : d ≠ []) :
    (∃ n s1, self.tokenize d q = .returns n s1 ∧ (n = 0 ↔ self.data = []) ∧
      (self.data ≠ [] → 1 ≤ n)) ∧
    (∀ (acc : List (Nat × Nat)) (i last : Nat), i < self.size → last ≤ i →
      ∃ i1 last1 s1 j,
        string.tokenize_body d q self.size i last ⟨self.data, acc⟩ = .ok (i1, last1, s1) ∧
        i ≤ j ∧ j < self.size ∧ (i1 = j + 1 ∨ i1 = j + d.length) ∧ i < i1) ∧
    (∀ fuel, self.size < fuel →
      string.tokenize_loop d q self.size fuel 0 0 ⟨self.data, []⟩
        = string.tokenize_loop d q self.size (self.size + 1) 0 0 ⟨self.data, []⟩) := by
  have hdl : 0 < d.length := List.length_pos.mpr hd
  refine ⟨?_, ?_, ?_⟩
  · obtain ⟨toks, h1, h2, h3⟩ := tokenize_returns self d q hd
    refine ⟨_, _, h1, ⟨?_, ?_⟩, ?_⟩
    · intro h0
      by_contra hne
      exact h3 hne (List.length_eq_zero.mp h0)
    · intro hnil
      cases toks with
      | nil => rfl
      | cons p ps =>
        have := (h2 p (List.mem_cons_self _ _)).1
        simp [string.size, hnil] at this
    · intro hne
      exact List.length_pos.mpr (h3 hne)
  · intro acc i last hi hl
    obtain ⟨j, span, hj1, hj2, -, -, hb | ⟨hj3, hb⟩⟩ :=
      tokenize_body_cases d q self.data acc i last hi hl
    · exact ⟨_, _, _, j, hb, hj1, hj2, Or.inr rfl, by omega⟩
    · exact ⟨_, _, _, j, hb, hj1, hj2, Or.inl rfl, by omega⟩
  · intro fuel hfuel
    obtain ⟨toks, h1, -, -⟩ := tokenize_loop_returns d q self.data hd (self.data.length + 1)
      0 0 [] (le_refl _) (by omega)
    have hfuel' : self.data.length < fuel := hfuel
    have := tokenize_loop_fuel d q self.data.length _ _ _ _ _ h1 (fuel - (self.data.length + 1))
    rw [show self.data.length + 1 + (fuel - (self.data.length + 1)) = fuel by omega] at this
    simp only [string.size]
    rw [this, h1]

theorem tokenize_terminates_witness :
    (['-', '-'] : List Char) ≠ [] ∧
    ∃ n s1, (lit "a--b").tokenize ['-', '-'] [] = .returns n s1 ∧
      (n = 0 ↔ (lit "a--b").data = []) ∧ ((lit "a--b").data ≠ [] → 1 ≤ n) :=
  ⟨by decide, (tokenize_terminates (lit "a--b") ['-', '-'] [] (by decide)).1⟩

/-! ## `trim_all_of` against `trim_any_of` -/

theorem trim_loops_agree (any : List Char) (h : ∀ x ∈ any, ∀ y ∈ any, x = y) :
    ∀ (l : List Char) (front : Bool),
      string.trim_all_of_loop any front l = string.trim_any_of_loop any front l := by
  intro l
  induction l with
  | nil => intro front; rfl
  | cons x rest ih =>
    intro front
    have hcond : (string.has_char any x && (front || rest.isEmpty || rest.head? == some x))
        = (string.has_char any x && (front || rest.isEmpty
          || (rest.head?.map (string.has_char any)).getD false)) := by
      cases hx : string.has_char any x with
      | false => rfl
      | true =>
        have hxm : x ∈ any := (has_char_iff any x).mp hx
        cases rest with
        | nil => simp
        | cons n r =>
          simp only [Bool.true_and, List.isEmpty_cons, Bool.or_false, List.head?_cons,
            Option.map_some', Option.getD_some]
          congr 1
          rw [Bool.eq_iff_iff, has_char_iff]
          constructor
          · intro hn
            have : n = x := by simpa using hn
            rw [this]
            exact hxm
          · intro hn
            have : n = x := h n hn x hxm
            simp [this]
    rw [string.trim_all_of_loop, string.trim_any_of_loop, hcond, ih front, ih false]

/-- C20: for a character set in which all characters are the same, in particular a
set of a single character, `trim_all_of` and `trim_any_of` have the same
outcome and leave the same content. -/
theorem trim_all_of_eq_trim_any_of (self : string) (any : List Char)
    (h : ∀ x ∈ any, ∀ y ∈ any, x = y) :
    self.trim_all_of any = self.trim_any_of any ∧
    ∀ ch : Char, self.trim_all_of [ch] = self.trim_any_of [ch] := by
  constructor
  · unfold string.trim_all_of string.trim_any_of
    rw [trim_loops_agree any h]
  · intro ch
    unfold string.trim_all_of string.trim_any_of
    rw [trim_loops_agree [ch] (by
      intro x hx y hy
      rw [List.mem_singleton] at hx hy
      rw [hx, hy])]

theorem trim_all_of_eq_trim_any_of_witness :
    (∀ x ∈ [' '], ∀ y ∈ [' '], x = y) ∧
    (lit "  a   b c  ").trim_all_of [' '] = (lit "  a   b c  ").trim_any_of [' '] ∧
    (lit "  a   b c  ").trim_any_of [' '] = .returns (lit "a b c") (lit "a b c") :=
  ⟨by decide, (trim_all_of_eq_trim_any_of (lit "  a   b c  ") [' '] (by decide)).1, by decide⟩

end mad

